import Mathlib

/-!
Verification of the Sigil core: the deterministic perceptual-hash pipeline
(`src/core/perceptual_hash.py`), the fingerprint store (`src/core/hash_database.py`),
the Ed25519 signing/verification protocol (`src/core/crypto_signatures.py`) and the
anchor management (`src/cli/anchor.py`), via a shallow embedding in Lean.

Modelling conventions:
* Python strings are lists of Unicode code points (`Str := List Nat`); byte strings
  are lists of byte values.
* Python floating-point arithmetic is embedded as exact rational arithmetic (`ℚ`);
  external numeric routines without a rational counterpart (the square root used by
  `np.linalg.norm`) are parameters of the embedding.
* External collaborators (OpenCV per-frame feature operators, numpy's seeded
  pseudo-random generator, hashlib, the `cryptography` Ed25519 primitives, base64)
  are opaque deterministic functions, passed in `VisionOps` / `CryptoOps`
  parameter structures; theorems that need a contract of such a collaborator
  (for example that Ed25519 verification accepts honestly produced signatures)
  take that contract as an explicit, satisfiable hypothesis.
* Fallible Python code is embedded with `Except PyErr`; a raised exception is an
  `Except.error` value.
-/

namespace Sigil

/-- Python strings as lists of Unicode code points. -/
abbrev Str := List Nat

/-- Convert a Lean string literal to the code-point representation. -/
def s2n (s : String) : Str := s.data.map Char.toNat

/-- Python exceptions that the embedded code can raise. -/
inductive PyErr where
  | stopIteration
  | valueError (msg : Str)
  | keyError (key : Str)
  | typeError (msg : Str)
  | binasciiError
  | invalidSignature
  deriving DecidableEq

/-- Strict lexicographic comparison of code-point strings: Python's `<` on `str`. -/
def strLtB : Str → Str → Bool
  | [], [] => false
  | [], _ :: _ => true
  | _ :: _, [] => false
  | a :: s, b :: t => if a < b then true else if b < a then false else strLtB s t

/-- Non-strict lexicographic comparison of code-point strings: Python's `<=` on `str`. -/
def strLeB (s t : Str) : Bool := !(strLtB t s)

/-- Insert an element into a list so that a `le`-sorted list stays sorted. -/
def insertLe {α : Type} (le : α → α → Bool) (a : α) : List α → List α
  | [] => [a]
  | b :: t => if le a b then a :: b :: t else b :: insertLe le a t

/-- Comparison sort (models Python's `sorted` / `list.sort`; ordering facts are
all that the development relies on, never the tie order of an unstable pair). -/
def sortLe {α : Type} (le : α → α → Bool) : List α → List α
  | [] => []
  | a :: t => insertLe le a (sortLe le t)

/-- Join a list of strings with a separator (models `sep.join(...)`). -/
def joinSep (sep : List Nat) : List (List Nat) → List Nat
  | [] => []
  | [x] => x
  | x :: y :: t => x ++ sep ++ joinSep sep (y :: t)

/-- JSON-serialisable Python values: `None`, `bool`, `int`, `str`, `list`, `dict`.
A `dict` is a list of key/value pairs in insertion order, as in Python 3.7+. -/
inductive PyJson where
  | null
  | bool (b : Bool)
  | int (n : Int)
  | str (s : Str)
  | arr (xs : List PyJson)
  | obj (kvs : List (Str × PyJson))

/-- A Python dict whose values are JSON values (the shape of a signature document). -/
abbrev PyDict := List (Str × PyJson)

/-- Python truthiness of a JSON value: `None`, `False`, `0`, `""`, `[]` and
an empty dict are falsy, everything else is truthy. -/
def pyTruthy : PyJson → Bool
  | .null => false
  | .bool b => b
  | .int n => n != 0
  | .str s => !s.isEmpty
  | .arr xs => !xs.isEmpty
  | .obj kvs => !kvs.isEmpty

/-- `d.get(k)` on a Python dict (keys are unique in a real dict, the first
binding wins here). -/
def dictGet (d : PyDict) (k : Str) : Option PyJson := d.lookup k

/-- `d[k] = v` on a Python dict: replace in place if the key exists,
append otherwise. -/
def dictPut (d : PyDict) (k : Str) (v : PyJson) : PyDict :=
  if (d.lookup k).isSome then d.map (fun kv => if kv.1 == k then (k, v) else kv)
  else d ++ [(k, v)]

/-- Python `==` against a string value: true exactly for the equal string
(a Python `str` never compares equal to a non-`str`). -/
def pyEqStr : PyJson → Str → Bool
  | .str s, t => s == t
  | _, _ => false

/-- Lowercase hexadecimal digit for a value below 16. -/
def hexDig (k : Nat) : Nat := if k < 10 then 48 + k else 87 + k

/-- Four-digit lowercase hexadecimal rendering of a value below 0x10000,
as used in JSON `\uXXXX` escapes. -/
def hex4 (n : Nat) : List Nat :=
  [hexDig (n / 4096 % 16), hexDig (n / 256 % 16), hexDig (n / 16 % 16), hexDig (n % 16)]

/-- Escape of one character by `json.dumps` with its default `ensure_ascii=True`:
quote and backslash get two-character escapes, the usual control characters get
their short escapes, all other characters outside the printable ASCII range get
`\uXXXX` escapes (a surrogate pair for code points above 0xFFFF). -/
def escChar (c : Nat) : List Nat :=
  if c = 34 then [92, 34]
  else if c = 92 then [92, 92]
  else if c = 8 then [92, 98]
  else if c = 9 then [92, 116]
  else if c = 10 then [92, 110]
  else if c = 12 then [92, 102]
  else if c = 13 then [92, 114]
  else if c < 32 then 92 :: 117 :: hex4 c
  else if c < 127 then [c]
  else if c < 65536 then 92 :: 117 :: hex4 c
  else 92 :: 117 :: hex4 (55296 + (c - 65536) / 1024) ++ 92 :: 117 :: hex4 (56320 + (c - 65536) % 1024)

/-- JSON rendering of a Python string: quoted, with every character escaped
per `escChar`. -/
def strDump (s : Str) : List Nat := 34 :: s.flatMap escChar ++ [34]

/-- Decimal digits of a natural number. -/
def natDec (n : Nat) : List Nat := (Nat.toDigits 10 n).map Char.toNat

/-- JSON rendering of a Python int: optional minus sign and decimal digits. -/
def intDump (n : Int) : List Nat :=
  if n < 0 then 45 :: natDec n.natAbs else natDec n.natAbs

mutual
/-- JSON serialisation of a value, parameterised on `json.dumps` options:
`sortKeys` is `sort_keys`, `sepI`/`sepKV` are the item and key separators.
Sorting a dict's entries by key commutes with serialising each entry, so the
entries are serialised first and the serialised pairs sorted, which keeps the
recursion structural. -/
def dumpsW (sortKeys : Bool) (sepI sepKV : List Nat) : PyJson → List Nat
  | .null => s2n "null"
  | .bool true => s2n "true"
  | .bool false => s2n "false"
  | .int n => intDump n
  | .str s => strDump s
  | .arr xs => 91 :: joinSep sepI (dumpsWList sortKeys sepI sepKV xs) ++ [93]
  | .obj kvs =>
      let ser := dumpsWPairs sortKeys sepI sepKV kvs
      let ser := if sortKeys then sortLe (fun a b => strLeB a.1 b.1) ser else ser
      123 :: joinSep sepI (ser.map (fun kv => strDump kv.1 ++ sepKV ++ kv.2)) ++ [125]

/-- Serialise every element of a list of JSON values. -/
def dumpsWList (sortKeys : Bool) (sepI sepKV : List Nat) : List PyJson → List (List Nat)
  | [] => []
  | x :: t => dumpsW sortKeys sepI sepKV x :: dumpsWList sortKeys sepI sepKV t

/-- Serialise the value of every entry of a dict, keeping the keys. -/
def dumpsWPairs (sortKeys : Bool) (sepI sepKV : List Nat) :
    List (Str × PyJson) → List (Str × List Nat)
  | [] => []
  | kv :: t => (kv.1, dumpsW sortKeys sepI sepKV kv.2) :: dumpsWPairs sortKeys sepI sepKV t
end

/-- Canonical JSON encoding used for signing:
`json.dumps(claim, sort_keys=True, separators=(',', ':'))`, UTF-8 encoded.
With `ensure_ascii=True` the output is pure ASCII, so the UTF-8 bytes coincide
with the code points. -/
def canonicalDumps (v : PyJson) : List Nat := dumpsW true [44] [58] v

/-- Default-option `json.dumps(v)`: insertion order, separators `", "` and `": "`. -/
def defaultDumps (v : PyJson) : List Nat := dumpsW false [44, 32] [58, 32] v

/-- The external cryptographic collaborators of `crypto_signatures.py`
(the `cryptography` Ed25519 primitives, `base64` and `hashlib`), as opaque
deterministic functions. `verifyRaw` returning `false` models
`Ed25519PublicKey.verify` raising `InvalidSignature`. -/
structure CryptoOps where
  sign : List Nat → List Nat → List Nat
  verifyRaw : List Nat → List Nat → List Nat → Bool
  publicOf : List Nat → List Nat
  fromPublicBytes : List Nat → Except PyErr (List Nat)
  b64encode : List Nat → Str
  b64decode : Str → Except PyErr (List Nat)
  sha256 : List Nat → List Nat

/-- Ed25519 accepts a signature honestly produced with the matching private key. -/
def SigCorrect (ops : CryptoOps) (sk : List Nat) : Prop :=
  ∀ msg, ops.verifyRaw (ops.publicOf sk) (ops.sign sk msg) msg = true

/-- An Ed25519 signature binds the signed message: a signature for one message is
not accepted for a different message under the same public key. -/
def SigBinding (ops : CryptoOps) (sk : List Nat) : Prop :=
  ∀ msg msg', ops.verifyRaw (ops.publicOf sk) (ops.sign sk msg) msg' = true → msg' = msg

/-- Decoding inverts encoding for base64. -/
def B64RoundTrip (ops : CryptoOps) : Prop :=
  ∀ bs, ops.b64decode (ops.b64encode bs) = .ok bs

/-- `from_public_bytes` accepts the raw public key derived from `sk` and returns it. -/
def PubBytesOk (ops : CryptoOps) (sk : List Nat) : Prop :=
  ops.fromPublicBytes (ops.publicOf sk) = .ok (ops.publicOf sk)

/-- Python `s.rstrip('=')`. -/
def rstripEq (s : Str) : Str := (s.reverse.dropWhile (· == 61)).reverse

/-- `SigilIdentity.key_id`: `"SHA256:"` followed by the un-padded base64 of the
SHA-256 digest of the raw public key bytes. -/
def keyId (ops : CryptoOps) (sk : List Nat) : Str :=
  s2n "SHA256:" ++ rstripEq (ops.b64encode (ops.sha256 (ops.publicOf sk)))

/-- Python `metadata or \x7b\x7d`: the metadata map if truthy, else an empty dict. -/
def pyOrEmptyDict (metadata : Option PyJson) : PyJson :=
  match metadata with
  | some m => if pyTruthy m then m else .obj []
  | Option.none => .obj []

/-- The claim built by `sign_hash`: hash, metadata and signing-time timestamp,
in the dict insertion order of the source. -/
def mkClaim (hash_hex : Str) (metadata : Option PyJson) (now : Str) : PyJson :=
  .obj [(s2n "hash_hex", .str hash_hex),
        (s2n "metadata", pyOrEmptyDict metadata),
        (s2n "timestamp", .str now)]

/-- The proof dict built by `sign_hash`: base64 signature and raw public key,
key id, algorithm identifier and signing time, in source insertion order. -/
def mkProof (ops : CryptoOps) (sk : List Nat) (now : Str)
    (signature_bytes : List Nat) : PyJson :=
  .obj [(s2n "signature", .str (ops.b64encode signature_bytes)),
        (s2n "public_key", .str (ops.b64encode (ops.publicOf sk))),
        (s2n "key_id", .str (keyId ops sk)),
        (s2n "algorithm", .str (s2n "Ed25519")),
        (s2n "signed_at", .str now)]

/-- The complete signature document assembled by `sign_hash`: the claim, the
proof over the canonical claim bytes, an empty anchor list and the format
version. -/
def signedDoc (ops : CryptoOps) (sk : List Nat) (now hash_hex : Str)
    (metadata : Option PyJson) : PyDict :=
  [(s2n "claim", mkClaim hash_hex metadata now),
   (s2n "proof", mkProof ops sk now
     (ops.sign sk (canonicalDumps (mkClaim hash_hex metadata now)))),
   (s2n "anchors", .arr []),
   (s2n "version", .str (s2n "1.0"))]

/-- `SigilIdentity.sign_hash`. `sk?` is the loaded private key (`None` when no
identity is loaded); `now` is the `datetime.utcnow()` timestamp string. The
returned document is the `claim`/`proof`/`anchors`/`version` dict. -/
def sign_hash (ops : CryptoOps) (sk? : Option (List Nat)) (now : Str)
    (hash_hex : Str) (metadata : Option PyJson) : Except PyErr PyDict :=
  match sk? with
  | Option.none =>
      .error (.valueError (s2n "No identity loaded. Call ensure_identity() first."))
  | some sk =>
      if hash_hex.length ≠ 64 then
        .error (.valueError (s2n "Invalid hash_hex. Expected 64-char hex string"))
      else
        .ok (signedDoc ops sk now hash_hex metadata)

/-- Python `v[k]`: `KeyError` when the key is missing, `TypeError` when `v` is
not a dict. -/
def pyIndex (v : PyJson) (k : Str) : Except PyErr PyJson :=
  match v with
  | .obj kvs =>
      match dictGet kvs k with
      | some x => .ok x
      | Option.none => .error (.keyError k)
  | _ => .error (.typeError (s2n "object is not subscriptable"))

/-- `base64.b64decode` requires a string argument (`TypeError` otherwise). -/
def asStr : PyJson → Except PyErr Str
  | .str s => .ok s
  | _ => .error (.typeError (s2n "argument should be a bytes-like object or ASCII string"))

/-- The reason returned when the `claim` or `proof` field is absent or falsy. -/
def missingPartsMsg : Str :=
  s2n "Missing \x27claim\x27 or \x27proof\x27 in signature document"

/-- The checks of `verify_signature` once both fields are present and truthy:
re-serialise the claim canonically, base64-decode signature and public key,
reconstruct the Ed25519 key and verify. Any raised exception is an
`Except.error`. -/
def verifyChecks (ops : CryptoOps) (claim proof : PyJson) :
    Except PyErr (Bool × Option Str) := do
  let claim_bytes := canonicalDumps claim
  let sigField ← pyIndex proof (s2n "signature")
  let sigStr ← asStr sigField
  let signature_bytes ← ops.b64decode sigStr
  let pkField ← pyIndex proof (s2n "public_key")
  let pkStr ← asStr pkField
  let public_key_bytes ← ops.b64decode pkStr
  let public_key ← ops.fromPublicBytes public_key_bytes
  if ops.verifyRaw public_key signature_bytes claim_bytes then .ok (true, Option.none)
  else .error .invalidSignature

/-- Body of `verify_signature`'s `try` block, as a function of the values of the
`claim` and `proof` fields only (the code reads nothing else from the document):
`if not claim or not proof` fails with the missing-parts reason, otherwise the
cryptographic checks run. -/
def verifyFromParts (ops : CryptoOps) (claim? proof? : Option PyJson) :
    Except PyErr (Bool × Option Str) :=
  match claim?, proof? with
  | some claim, some proof =>
      if !pyTruthy claim || !pyTruthy proof then .ok (false, some missingPartsMsg)
      else verifyChecks ops claim proof
  | _, _ => .ok (false, some missingPartsMsg)

/-- Rendering of `str(e)` per exception type. The theorems rely only on a reason
being present, never on its wording. -/
def pyErrMsg : PyErr → Str
  | .stopIteration => []
  | .valueError m => m
  | .keyError k => k
  | .typeError m => m
  | .binasciiError => s2n "Invalid base64-encoded string"
  | .invalidSignature => []

/-- `SigilIdentity.verify_signature`: runs the `try` body on the `claim` and
`proof` fields; the `except` clause turns any raised exception into
`(False, "Verification failed: ...")`. -/
def verify_signature (ops : CryptoOps) (doc : PyDict) : Bool × Option Str :=
  match verifyFromParts ops (dictGet doc (s2n "claim")) (dictGet doc (s2n "proof")) with
  | .ok r => r
  | .error e => (false, some (s2n "Verification failed: " ++ pyErrMsg e))

/-- The anchor dict built by `add_anchor`, in source insertion order; the
`metadata` entry is present only when metadata was supplied. -/
def newAnchor (anchor_type url now : Str) (metadata : Option PyJson) : PyJson :=
  .obj ([(s2n "type", .str anchor_type), (s2n "url", .str url),
         (s2n "anchored_at", .str now)]
        ++ (match metadata with | some m => [(s2n "metadata", m)] | Option.none => []))

/-- The duplicate scan of `add_anchor`: walk the anchors in order, read each
one's `url` entry (raising `KeyError`/`TypeError` on a malformed anchor exactly
as `existing_anchor['url']` would), stop at the first equal url. -/
def findDupAnchor (url : Str) : List PyJson → Except PyErr Bool
  | [] => .ok false
  | a :: t => do
      let u ← pyIndex a (s2n "url")
      if pyEqStr u url then .ok true else findDupAnchor url t

/-- `cli.anchor.add_anchor` on an in-memory document. `now` is the
`datetime.utcnow()` timestamp. The boolean result records whether the
"already anchored" warning was emitted (in which case the document is returned
unchanged); otherwise the new anchor is appended in place. -/
def add_anchor (doc : PyDict) (anchor_type url now : Str) (metadata : Option PyJson) :
    Except PyErr (PyDict × Bool) :=
  match dictGet doc (s2n "anchors") with
  | Option.none =>
      let doc1 := doc ++ [(s2n "anchors", .arr [])]
      .ok (dictPut doc1 (s2n "anchors") (.arr [newAnchor anchor_type url now metadata]), false)
  | some (.arr anchors) => do
      let dup ← findDupAnchor url anchors
      if dup then .ok (doc, true)
      else .ok (dictPut doc (s2n "anchors")
        (.arr (anchors ++ [newAnchor anchor_type url now metadata])), false)
  | some _ => .error (.typeError (s2n "object is not iterable"))

/-- Seed argument of `compute_perceptual_hash`: `None`, a Python int, or a string. -/
inductive PySeed where
  | none
  | int (n : Int)
  | str (s : Str)

/-- ASCII whitespace stripped by Python's `int(str)`. -/
def isWs (c : Nat) : Bool := c = 32 || c = 9 || c = 10 || c = 11 || c = 12 || c = 13

/-- ASCII decimal digit. -/
def isDigitB (c : Nat) : Bool := 48 ≤ c && c ≤ 57

/-- Accumulate the value of a digit run, allowing single underscores strictly
between digits (Python's numeric-literal rule for `int(str)`). -/
def digitsVal : List Nat → Nat → Option Nat
  | [], acc => some acc
  | c :: t, acc =>
      if isDigitB c then digitsVal t (acc * 10 + (c - 48))
      else if c = 95 then
        match t with
        | d :: _ => if isDigitB d then digitsVal t acc else Option.none
        | [] => Option.none
      else Option.none

/-- Value of a non-empty digit run that must start with a digit. -/
def digitsRun (s : List Nat) : Option Nat :=
  match s with
  | c :: _ => if isDigitB c then digitsVal s 0 else Option.none
  | [] => Option.none

/-- Python `int(s)` on an ASCII string: surrounding whitespace, an optional
sign, then decimal digits with optional single underscores between digits;
`None` models the `ValueError` that `compute_perceptual_hash` catches. -/
def pyParseInt (s : Str) : Option Int :=
  let core := ((s.dropWhile isWs).reverse.dropWhile isWs).reverse
  match core with
  | 43 :: r => (digitsRun r).map Int.ofNat
  | 45 :: r => (digitsRun r).map (fun n => -(n : Int))
  | r => (digitsRun r).map Int.ofNat

/-- The external collaborators of `perceptual_hash.py` for one frame type:
the per-frame OpenCV feature operators (each the fixed composite of resizing,
grayscale conversion and the respective filter, already flattened to the
down-sampled dimensions), `hashlib.sha256(...).hexdigest()` read as an integer,
numpy's seeded standard-normal matrix entries, and the floating-point square
root used by `np.linalg.norm`. All are deterministic functions. -/
structure VisionOps (Frame : Type) where
  canny_edges : Frame → List ℚ
  gabor_textures : Frame → List ℚ
  laplacian_saliency : Frame → List ℚ
  color_histogram : Frame → List ℚ
  sha256IntOfUtf8 : Str → Nat
  randn : Nat → Nat → Nat → Nat → Nat → ℚ
  sqrt : ℚ → ℚ

/-- Per-frame feature bundle of `extract_perceptual_features`: edge map, stacked
Gabor texture responses, Laplacian saliency map and HSV color histogram, each
kept in flattened form. -/
structure FeatureSet where
  edges : List ℚ
  textures : List ℚ
  saliency : List ℚ
  color_hist : List ℚ

/-- `extract_perceptual_features`: the mapping from frame index to `FeatureSet`,
in frame order (Python dict keys `0..n-1` in insertion order). An empty frame
list yields an empty mapping — the function has no empty-input check. -/
def extract_perceptual_features {Frame : Type} (ops : VisionOps Frame)
    (video_frames : List Frame) : List FeatureSet :=
  video_frames.map (fun frame =>
    { edges := ops.canny_edges frame
      textures := ops.gabor_textures frame
      saliency := ops.laplacian_saliency frame
      color_hist := ops.color_histogram frame })

/-- Seed normalisation of `compute_perceptual_hash`: `None` becomes 42, an int
is used as is, a string is parsed as an int when possible and otherwise hashed
with SHA-256 and reduced mod 2^32. -/
def pyRealSeed {Frame : Type} (ops : VisionOps Frame) : PySeed → Int
  | .none => 42
  | .int n => n
  | .str s =>
      match pyParseInt s with
      | some n => n
      | Option.none => Int.ofNat (ops.sha256IntOfUtf8 s % 2 ^ 32)

/-- `np.random.seed(real_seed)`: requires a value in `[0, 2^32)` and installs a
fresh generator state fully determined by the seed (the state is identified
with the seed value; only its functional dependence on the seed matters). -/
def npRandomSeed (real_seed : Int) : Except PyErr Nat :=
  if 0 ≤ real_seed ∧ real_seed < 2 ^ 32 then .ok real_seed.toNat
  else .error (.valueError (s2n "Seed must be between 0 and 2**32 - 1"))

/-- Flatten and concatenate the four feature arrays of a frame, in source order. -/
def frameVec (fs : FeatureSet) : List ℚ :=
  fs.edges ++ fs.textures ++ fs.saliency ++ fs.color_hist

/-- `np.nan_to_num(..., posinf=0.0, neginf=0.0)`: the identity on exact
rationals, which have no non-finite values. -/
def nanToNum (v : List ℚ) : List ℚ := v

/-- The normalisation step of the hash loop: divide by the L2 norm when it
exceeds `1e-8`, otherwise replace by the zero vector. -/
def l2normalize {Frame : Type} (ops : VisionOps Frame) (v : List ℚ) : List ℚ :=
  let norm := ops.sqrt ((v.map (fun x => x * x)).sum)
  if norm > 1 / 100000000 then v.map (fun x => x / norm) else v.map (fun _ => 0)

/-- `frame_vec @ projection`: entry `j` of the projected vector. -/
def projApply (v : List ℚ) (P : Nat → Nat → ℚ) (hash_size : Nat) : Fin hash_size → ℚ :=
  fun j => (v.enum.map (fun p => p.2 * P p.1 j.1)).sum

/-- One incremental-mean update: `projected_mean += (projected - projected_mean) / (i + 1)`. -/
def welfordStep {h : Nat} (m p : Fin h → ℚ) (i : Nat) : Fin h → ℚ :=
  fun j => m j + (p j - m j) / (i + 1)

/-- The incremental-mean loop over the projected vectors, with the running
frame index. -/
def welfordAux {h : Nat} : List (Fin h → ℚ) → (Fin h → ℚ) → Nat → (Fin h → ℚ)
  | [], m, _ => m
  | p :: t, m, i => welfordAux t (welfordStep m p i) (i + 1)

/-- The running mean of `compute_perceptual_hash`, started from
`np.zeros(hash_size)` at frame index 0. -/
def projectedMeanOf {h : Nat} (ps : List (Fin h → ℚ)) : Fin h → ℚ :=
  welfordAux ps (fun _ => 0) 0

/-- `np.median`: sort, then the middle element, or the mean of the two middle
elements for even length. -/
def npMedian (v : List ℚ) : ℚ :=
  let s := sortLe (fun a b => decide (a ≤ b)) v
  let n := v.length
  if n % 2 = 0 then (s.getD (n / 2 - 1) 0 + s.getD (n / 2) 0) / 2
  else s.getD (n / 2) 0

/-- The binarisation step: each output bit is 1 exactly when the corresponding
mean entry strictly exceeds the median of the mean vector. -/
def binarize (hash_size : Nat) (m : Fin hash_size → ℚ) : List Bool :=
  let median_val := npMedian (List.ofFn m)
  List.ofFn (fun j => decide (m j > median_val))

/-- The per-frame body of the hash loop: flatten/concatenate, replace
non-finite values, L2-normalise, and multiply by the projection matrix; numpy
raises `ValueError` when a frame's vector length does not match the projection
matrix's row count. -/
def projectFrames {Frame : Type} (ops : VisionOps Frame) (P : Nat → Nat → ℚ)
    (total_dim hash_size : Nat) :
    List FeatureSet → Except PyErr (List (Fin hash_size → ℚ))
  | [] => .ok []
  | fs :: t =>
      let v := l2normalize ops (nanToNum (frameVec fs))
      if v.length = total_dim then do
        let rest ← projectFrames ops P total_dim hash_size t
        .ok (projApply v P hash_size :: rest)
      else .error (.valueError (s2n "matmul: dimension mismatch"))

/-- `next(iter(features.values()))`: the first frame\x27s feature set, raising
`StopIteration` when the mapping is empty. -/
def firstFeature : List FeatureSet → Except PyErr FeatureSet
  | [] => .error .stopIteration
  | fs :: _ => .ok fs

/-- `compute_perceptual_hash`. `npGlobalState` is the module-level numpy
generator state at call time; the call begins with `np.random.seed(real_seed)`,
which overwrites it. The result is the list of hash bits in index order. -/
def compute_perceptual_hash {Frame : Type} (ops : VisionOps Frame)
    (npGlobalState : Nat) (features : List FeatureSet)
    (hash_size : Nat := 256) (seed : PySeed := .int 42) : Except PyErr (List Bool) := do
  let real_seed := pyRealSeed ops seed
  let st ← npRandomSeed real_seed
  let first_features ← firstFeature features
  let total_dim := first_features.edges.length + first_features.textures.length
      + first_features.saliency.length + first_features.color_hist.length
  let projection := fun i j => ops.randn st total_dim hash_size i j
  let projs ← projectFrames ops projection total_dim hash_size features
  let projected_mean := projectedMeanOf projs
  .ok (binarize hash_size projected_mean)

/-- `hamming_distance` of `perceptual_hash.py`: `np.sum(hash1 != hash2)` on
equal-length bit arrays. -/
def hamming_distance (hash1 hash2 : List Bool) : Nat :=
  (hash1.zip hash2).countP (fun p => p.1 != p.2)

/-- One row of the `hashes` table of `hash_database.py`. -/
structure HashRecord where
  id : Nat
  hash : Str
  hash_hex : Str
  video_id : Option Str
  platform : Option Str
  upload_date : Option Str
  file_path : Option Str
  frame_count : Option Int
  metadata : Option Str
  created_at : Str
  signature : Option Str
  public_key : Option Str
  key_id : Option Str
  signed_at : Option Str
  signature_version : Option Str
  deriving DecidableEq

/-- The `hashes` table plus the AUTOINCREMENT counter that determines the next
fresh row id (`cursor.lastrowid` of a successful INSERT). -/
structure HashDatabase where
  rows : List HashRecord
  nextId : Nat
  deriving DecidableEq

/-- The optional keyword arguments of `HashDatabase.store_hash`, all defaulting
to `None`. -/
structure StoreArgs where
  video_id : Option Str := Option.none
  platform : Option Str := Option.none
  upload_date : Option Str := Option.none
  file_path : Option Str := Option.none
  frame_count : Option Int := Option.none
  metadata : Option PyJson := Option.none
  signature : Option Str := Option.none
  public_key : Option Str := Option.none
  key_id : Option Str := Option.none
  signed_at : Option Str := Option.none
  signature_version : Option Str := Option.none

/-- `''.join(map(str, hash_binary.astype(int)))`: the 0/1 character string of a
bit array. -/
def bitsStr (hash_binary : List Bool) : Str :=
  hash_binary.map (fun b => if b then 49 else 48)

/-- `int(hash_str, 2)`: the big-endian value of the bit string. -/
def bitsVal (bits : List Bool) : Nat :=
  bits.foldl (fun acc b => acc * 2 + (if b then 1 else 0)) 0

/-- `hex(n)[2:]`: lowercase hexadecimal digits without prefix. -/
def natHexStr (n : Nat) : Str := (Nat.toDigits 16 n).map Char.toNat

/-- Python `str.zfill`: left-pad with `'0'` up to the width. -/
def zfill (width : Nat) (s : Str) : Str := List.replicate (width - s.length) 48 ++ s

/-- `hex(int(hash_str, 2))[2:].zfill(64)`. -/
def hashHexOfBits (bits : List Bool) : Str := zfill 64 (natHexStr (bitsVal bits))

/-- `json.dumps(metadata) if metadata else None`: a falsy metadata argument
(`None` or an empty dict) is stored as NULL. -/
def metadataJson (metadata : Option PyJson) : Option Str :=
  match metadata with
  | some m => if pyTruthy m then some (defaultDumps m) else Option.none
  | Option.none => Option.none

/-- SQL `COALESCE(?, col)`: the bound parameter when non-NULL, else the old
column value. -/
def coalesce {α : Type} (new old : Option α) : Option α :=
  match new with
  | some v => some v
  | Option.none => old

/-- The `UPDATE ... SET col = COALESCE(?, col)` applied to a row on re-submission
of an existing fingerprint; `hash`, `hash_hex`, `created_at` and `id` are not in
the SET list. -/
def mergeRow (a : StoreArgs) (metadata_json : Option Str) (r : HashRecord) : HashRecord :=
  { r with
    video_id := coalesce a.video_id r.video_id
    platform := coalesce a.platform r.platform
    upload_date := coalesce a.upload_date r.upload_date
    file_path := coalesce a.file_path r.file_path
    frame_count := coalesce a.frame_count r.frame_count
    metadata := coalesce metadata_json r.metadata
    signature := coalesce a.signature r.signature
    public_key := coalesce a.public_key r.public_key
    key_id := coalesce a.key_id r.key_id
    signed_at := coalesce a.signed_at r.signed_at
    signature_version := coalesce a.signature_version r.signature_version }

/-- `HashDatabase.store_hash`. `now` is `datetime.now(timezone.utc).isoformat()`.
When a row with the same `hash` string exists, the INSERT violates
`UNIQUE(hash)` (`sqlite3.IntegrityError`) and the handler UPDATEs that row with
COALESCE semantics and returns its id via `SELECT id ... WHERE hash = ?`;
otherwise a fresh row is inserted and its new id returned. -/
def store_hash (db : HashDatabase) (now : Str) (hash_binary : List Bool)
    (a : StoreArgs) : HashDatabase × Option Nat :=
  let hash_str := bitsStr hash_binary
  let hash_hex := hashHexOfBits hash_binary
  let metadata_json := metadataJson a.metadata
  if db.rows.any (fun r => r.hash == hash_str) then
    let rows' := db.rows.map (fun r =>
      if r.hash == hash_str then mergeRow a metadata_json r else r)
    let existing := rows'.find? (fun r => r.hash == hash_str)
    ({ rows := rows', nextId := db.nextId }, existing.map (fun r => r.id))
  else
    ({ rows := db.rows ++
        [{ id := db.nextId, hash := hash_str, hash_hex := hash_hex,
           video_id := a.video_id, platform := a.platform,
           upload_date := a.upload_date, file_path := a.file_path,
           frame_count := a.frame_count, metadata := metadata_json,
           created_at := now, signature := a.signature,
           public_key := a.public_key, key_id := a.key_id,
           signed_at := a.signed_at, signature_version := a.signature_version }],
       nextId := db.nextId + 1 }, some db.nextId)

/-- `sum(c1 != c2 for c1, c2 in zip(query, stored))`: character-level Hamming
distance of two strings, over the common length (`zip` truncates). -/
def hammingStrDist (a b : Str) : Nat :=
  (a.zip b).countP (fun p => p.1 != p.2)

/-- One entry of the result list of `query_similar`: the row's columns, the
parsed metadata, the Hamming distance and the similarity score. -/
structure SimilarMatch where
  id : Nat
  hash : Str
  hash_hex : Str
  video_id : Option Str
  platform : Option Str
  upload_date : Option Str
  file_path : Option Str
  frame_count : Option Int
  metadata : Option PyJson
  created_at : Str
  signature : Option Str
  public_key : Option Str
  key_id : Option Str
  signed_at : Option Str
  signature_version : Option Str
  hamming_distance : Nat
  similarity : ℚ

/-- Build the match dict for a row within threshold. `loads` is `json.loads`
(an external parser, opaque here); a NULL or empty metadata column stays `None`. -/
def matchOfRow (loads : Str → PyJson) (r : HashRecord) (distance : Nat) : SimilarMatch :=
  { id := r.id, hash := r.hash, hash_hex := r.hash_hex, video_id := r.video_id,
    platform := r.platform, upload_date := r.upload_date, file_path := r.file_path,
    frame_count := r.frame_count,
    metadata := match r.metadata with
      | some s => if s.isEmpty then Option.none else some (loads s)
      | Option.none => Option.none,
    created_at := r.created_at, signature := r.signature,
    public_key := r.public_key, key_id := r.key_id, signed_at := r.signed_at,
    signature_version := r.signature_version,
    hamming_distance := distance,
    similarity := 100 * (1 - (distance : ℚ) / 256) }

/-- The row scan of `query_similar`: all rows, or the rows of one platform when
a filter is given (`WHERE platform = ?`; a NULL platform never matches). -/
def platformRows (db : HashDatabase) (platform : Option Str) : List HashRecord :=
  match platform with
  | some p => db.rows.filter (fun r => r.platform == some p)
  | Option.none => db.rows

/-- `HashDatabase.query_similar`: scan the (possibly platform-filtered) rows,
keep those whose Hamming distance to the query is at most the threshold, sort
ascending by distance, truncate to `limit`. -/
def query_similar (loads : Str → PyJson) (db : HashDatabase) (hash_binary : List Bool)
    (threshold : Int := 30) (platform : Option Str := Option.none)
    (limit : Nat := 100) : List SimilarMatch :=
  let query_hash_str := bitsStr hash_binary
  let results := (platformRows db platform).filterMap (fun r =>
    let distance := hammingStrDist query_hash_str r.hash
    if (distance : Int) ≤ threshold then some (matchOfRow loads r distance)
    else Option.none)
  (sortLe (fun x y => decide (x.hamming_distance ≤ y.hamming_distance)) results).take limit

/-- The rows that qualify for a `query_similar` call before sorting and
truncation: platform-filtered and within the Hamming threshold. -/
def qualifyingRows (db : HashDatabase) (hash_binary : List Bool) (threshold : Int)
    (platform : Option Str) : List HashRecord :=
  (platformRows db platform).filter (fun r =>
    (hammingStrDist (bitsStr hash_binary) r.hash : Int) ≤ threshold)

/-- Value of a lowercase hexadecimal digit character, `None` otherwise. -/
def hexDigVal (d : Nat) : Option Nat :=
  if 48 ≤ d ∧ d ≤ 57 then some (d - 48)
  else if 97 ≤ d ∧ d ≤ 102 then some (d - 87)
  else Option.none

/-- Value of four hexadecimal digit characters. -/
def hexQuad (a b c d : Nat) : Option Nat := do
  let x ← hexDigVal a
  let y ← hexDigVal b
  let z ← hexDigVal c
  let w ← hexDigVal d
  some (4096 * x + 256 * y + 16 * z + w)

/-- Decoder for the tail of a multi-character escape sequence (everything after
the leading backslash). -/
def unescSeq : List Nat → Option Nat
  | [34] => some 34
  | [92] => some 92
  | [98] => some 8
  | [116] => some 9
  | [110] => some 10
  | [102] => some 12
  | [114] => some 13
  | [117, a, b, c, d] => hexQuad a b c d
  | [117, a, b, c, d, 92, 117, e, f, g, h] => do
      let hi ← hexQuad a b c d
      let lo ← hexQuad e f g h
      if 55296 ≤ hi ∧ hi < 56320 ∧ 56320 ≤ lo ∧ lo < 57344 then
        some ((hi - 55296) * 1024 + (lo - 56320) + 65536)
      else Option.none
  | _ => Option.none

/-- Decoder for the output of `escChar`, used to prove that `escChar` is
injective as a function (each code point's escape determines the code point). -/
def unescChar : List Nat → Option Nat
  | [c] => some c
  | c :: rest => if c = 92 then unescSeq rest else Option.none
  | [] => Option.none

/-- The normalised seed that `np.random.seed` will receive is in its accepted
range `[0, 2^32)`. -/
def seedInRange {Frame : Type} (ops : VisionOps Frame) (seed : PySeed) : Prop :=
  0 ≤ pyRealSeed ops seed ∧ pyRealSeed ops seed < 2 ^ 32

/-- Lowercase hexadecimal digit character. -/
def isHexDigit (c : Nat) : Bool := (48 ≤ c && c ≤ 57) || (97 ≤ c && c ≤ 102)

/-- Whether an anchor entry is a dict whose `url` entry equals the given url. -/
def anchorUrlIs (a : PyJson) (url : Str) : Bool :=
  match a with
  | .obj kvs =>
      match dictGet kvs (s2n "url") with
      | some v => pyEqStr v url
      | Option.none => false
  | _ => false

/-- The anchor list a document presents to `add_anchor`: the value of a present
`anchors` key, or the empty list that the function creates when the key is
missing. -/
def anchorsView (doc : PyDict) (A : List PyJson) : Prop :=
  dictGet doc (s2n "anchors") = some (.arr A) ∨
    (dictGet doc (s2n "anchors") = Option.none ∧ A = [])

/-- A concrete `CryptoOps` instance used only to instantiate closed corollaries
of the theorems (which hold for every `CryptoOps`): signatures are
key-prefixed messages and verification checks the prefix, so the signing
contracts hold by computation. -/
def trivialCryptoOps : CryptoOps where
  sign := fun sk msg => sk ++ msg
  verifyRaw := fun pk sig msg => sig == pk ++ msg
  publicOf := fun sk => sk
  fromPublicBytes := fun b => .ok b
  b64encode := fun b => b
  b64decode := fun s => .ok s
  sha256 := fun _ => []

/-- A concrete `VisionOps` instance over trivial one-pixel frames, used only to
instantiate closed corollaries of the theorems (which hold for every
`VisionOps`). -/
def trivialVisionOps : VisionOps Unit where
  canny_edges := fun _ => [1]
  gabor_textures := fun _ => [0]
  laplacian_saliency := fun _ => [0]
  color_histogram := fun _ => [0]
  sha256IntOfUtf8 := fun _ => 0
  randn := fun _ _ _ _ _ => 0
  sqrt := fun _ => 0

/-! ### Sorting infrastructure -/

theorem insertLe_perm {α : Type} (le : α → α → Bool) (a : α) (l : List α) :
    (insertLe le a l).Perm (a :: l) := by
  induction l with
  | nil => simp [insertLe]
  | cons b t ih =>
      by_cases h : le a b = true
      · simp [insertLe, h]
      · simp only [insertLe, h, if_false, Bool.false_eq_true, ite_false]
        exact (ih.cons b).trans (List.Perm.swap a b t)

theorem sortLe_perm {α : Type} (le : α → α → Bool) (l : List α) :
    (sortLe le l).Perm l := by
  induction l with
  | nil => simp [sortLe]
  | cons a t ih => exact (insertLe_perm le a (sortLe le t)).trans (ih.cons a)

theorem insertLe_pairwise {α : Type} (le : α → α → Bool)
    (total : ∀ a b, le a b = true ∨ le b a = true)
    (htrans : ∀ a b c, le a b = true → le b c = true → le a c = true)
    (a : α) (l : List α) (h : l.Pairwise (fun x y => le x y = true)) :
    (insertLe le a l).Pairwise (fun x y => le x y = true) := by
  induction l with
  | nil => simp [insertLe]
  | cons b t ih =>
      rcases List.pairwise_cons.mp h with ⟨hb, ht⟩
      by_cases hab : le a b = true
      · simp only [insertLe, hab, if_true, ite_true]
        refine List.pairwise_cons.mpr ⟨?_, h⟩
        intro x hx
        rcases List.mem_cons.mp hx with rfl | hx
        · exact hab
        · exact htrans a b x hab (hb x hx)
      · have hba : le b a = true := (total a b).resolve_left hab
        simp only [insertLe, hab, if_false, Bool.false_eq_true, ite_false]
        refine List.pairwise_cons.mpr ⟨?_, ih ht⟩
        intro x hx
        rcases List.mem_cons.mp ((insertLe_perm le a t).mem_iff.mp hx) with rfl | hx'
        · exact hba
        · exact hb x hx'

theorem sortLe_pairwise {α : Type} (le : α → α → Bool)
    (total : ∀ a b, le a b = true ∨ le b a = true)
    (htrans : ∀ a b c, le a b = true → le b c = true → le a c = true)
    (l : List α) :
    (sortLe le l).Pairwise (fun x y => le x y = true) := by
  induction l with
  | nil => simp [sortLe]
  | cons a t ih => exact insertLe_pairwise le total htrans a (sortLe le t) ih

theorem eq_of_perm_of_pairwise {α : Type} {lt : α → α → Prop}
    (asymm : ∀ a b, lt a b → lt b a → False) :
    ∀ l1 l2 : List α, l1.Perm l2 → l1.Pairwise lt → l2.Pairwise lt → l1 = l2 := by
  intro l1
  induction l1 with
  | nil => intro l2 hp _ _; exact hp.nil_eq
  | cons a t1 ih =>
      intro l2 hp h1 h2
      cases l2 with
      | nil => have := hp.length_eq; simp at this
      | cons b t2 =>
          rcases List.pairwise_cons.mp h1 with ⟨ha1, ht1⟩
          rcases List.pairwise_cons.mp h2 with ⟨hb2, ht2⟩
          by_cases hab : a = b
          · subst hab
            rw [ih t2 hp.cons_inv ht1 ht2]
          · exfalso
            have hamem : a ∈ b :: t2 := hp.mem_iff.mp (List.mem_cons_self a t1)
            have hbmem : b ∈ a :: t1 := hp.symm.mem_iff.mp (List.mem_cons_self b t2)
            have ha2 : a ∈ t2 := by
              rcases List.mem_cons.mp hamem with h | h
              · exact absurd h hab
              · exact h
            have hb1 : b ∈ t1 := by
              rcases List.mem_cons.mp hbmem with h | h
              · exact absurd h.symm hab
              · exact h
            exact asymm a b (ha1 b hb1) (hb2 a ha2)

/-! ### The string order -/

theorem strLtB_irrefl (s : Str) : strLtB s s = false := by
  induction s with
  | nil => rfl
  | cons c t ih => simp [strLtB, ih]

theorem strLtB_asymm : ∀ s t : Str, strLtB s t = true → strLtB t s = true → False := by
  intro s
  induction s with
  | nil =>
      intro t h1 h2
      cases t with
      | nil => simp [strLtB] at h1
      | cons c t' => simp [strLtB] at h2
  | cons a s' ih =>
      intro t h1 h2
      cases t with
      | nil => simp [strLtB] at h1
      | cons b t' =>
          simp only [strLtB] at h1 h2
          by_cases hab : a < b
          · have hba : ¬ b < a := by omega
            rw [if_neg hba, if_pos hab] at h2
            simp at h2
          · by_cases hba : b < a
            · rw [if_neg hab, if_pos hba] at h1
              simp at h1
            · rw [if_neg hab, if_neg hba] at h1
              rw [if_neg hba, if_neg hab] at h2
              exact ih t' h1 h2

theorem strLtB_connex : ∀ s t : Str, strLtB s t = false → strLtB t s = false → s = t := by
  intro s
  induction s with
  | nil =>
      intro t h1 _
      cases t with
      | nil => rfl
      | cons c t' => simp [strLtB] at h1
  | cons a s' ih =>
      intro t h1 h2
      cases t with
      | nil => simp [strLtB] at h2
      | cons b t' =>
          simp only [strLtB] at h1 h2
          by_cases hab : a < b
          · rw [if_pos hab] at h1; simp at h1
          · by_cases hba : b < a
            · rw [if_pos hba] at h2; simp at h2
            · rw [if_neg hab, if_neg hba] at h1
              rw [if_neg hba, if_neg hab] at h2
              have : a = b := by omega
              rw [this, ih t' h1 h2]

theorem strLtB_trans : ∀ s t u : Str, strLtB s t = true → strLtB t u = true →
    strLtB s u = true := by
  intro s
  induction s with
  | nil =>
      intro t u h1 h2
      cases t with
      | nil => simp [strLtB] at h1
      | cons b t' =>
          cases u with
          | nil => simp [strLtB] at h2
          | cons c u' => simp [strLtB]
  | cons a s' ih =>
      intro t u h1 h2
      cases t with
      | nil => simp [strLtB] at h1
      | cons b t' =>
          cases u with
          | nil => simp [strLtB] at h2
          | cons c u' =>
              simp only [strLtB] at h1 h2 ⊢
              by_cases hab : a < b
              · by_cases hbc : b < c
                · rw [if_pos (by omega : a < c)]
                · by_cases hcb : c < b
                  · simp [hbc, hcb] at h2
                  · have : b = c := by omega
                    rw [if_pos (by omega : a < c)]
              · by_cases hba : b < a
                · rw [if_neg hab, if_pos hba] at h1; simp at h1
                · have hab' : a = b := by omega
                  subst hab'
                  rw [if_neg hab, if_neg hba] at h1
                  by_cases hac : a < c
                  · rw [if_pos hac]
                  · by_cases hca : c < a
                    · simp [hac, hca] at h2
                    · rw [if_neg hac, if_neg hca] at h2 ⊢
                      exact ih t' u' h1 h2

theorem strLeB_total : ∀ s t : Str, strLeB s t = true ∨ strLeB t s = true := by
  intro s t
  cases hts : strLtB t s with
  | false => left; simp [strLeB, hts]
  | true =>
      right
      cases hst : strLtB s t with
      | false => simp [strLeB, hst]
      | true => exact absurd (strLtB_asymm s t hst hts) (by simp)

theorem strLeB_trans : ∀ s t u : Str, strLeB s t = true → strLeB t u = true →
    strLeB s u = true := by
  intro s t u h1 h2
  simp only [strLeB, Bool.not_eq_true'] at h1 h2 ⊢
  cases hus : strLtB u s with
  | false => rfl
  | true =>
      exfalso
      cases htu : strLtB t u with
      | true => rw [strLtB_trans t u s htu hus] at h1; simp at h1
      | false =>
          have : t = u := strLtB_connex t u htu h2
          subst this
          rw [hus] at h1
          simp at h1

theorem strLtB_of_le_of_ne {s t : Str} (hle : strLeB s t = true) (hne : s ≠ t) :
    strLtB s t = true := by
  simp only [strLeB, Bool.not_eq_true'] at hle
  cases hst : strLtB s t with
  | true => rfl
  | false => exact absurd (strLtB_connex s t hst hle) hne

/-! ### Injectivity of the JSON character escape -/

theorem hexDigVal_hexDig : ∀ k < 16, hexDigVal (hexDig k) = some k := by decide

theorem hexQuad_hexDig (n : Nat) (hn : n < 65536) :
    hexQuad (hexDig (n / 4096 % 16)) (hexDig (n / 256 % 16)) (hexDig (n / 16 % 16))
      (hexDig (n % 16)) = some n := by
  have h1 : hexDigVal (hexDig (n / 4096 % 16)) = some (n / 4096 % 16) :=
    hexDigVal_hexDig _ (Nat.mod_lt _ (by norm_num))
  have h2 : hexDigVal (hexDig (n / 256 % 16)) = some (n / 256 % 16) :=
    hexDigVal_hexDig _ (Nat.mod_lt _ (by norm_num))
  have h3 : hexDigVal (hexDig (n / 16 % 16)) = some (n / 16 % 16) :=
    hexDigVal_hexDig _ (Nat.mod_lt _ (by norm_num))
  have h4 : hexDigVal (hexDig (n % 16)) = some (n % 16) :=
    hexDigVal_hexDig _ (Nat.mod_lt _ (by norm_num))
  simp only [hexQuad, h1, h2, h3, h4, Option.bind_eq_bind, Option.some_bind,
    Option.some.injEq]
  omega

theorem unescChar_u6 (a b c d : Nat) : unescChar [92, 117, a, b, c, d] = hexQuad a b c d := rfl

theorem unescChar_u12 (a b c d e f g h : Nat) :
    unescChar [92, 117, a, b, c, d, 92, 117, e, f, g, h] = (do
      let hi ← hexQuad a b c d
      let lo ← hexQuad e f g h
      if 55296 ≤ hi ∧ hi < 56320 ∧ 56320 ≤ lo ∧ lo < 57344 then
        some ((hi - 55296) * 1024 + (lo - 56320) + 65536)
      else Option.none) := rfl

theorem unescChar_escChar (c : Nat) (hc : c < 1114112) :
    unescChar (escChar c) = some c := by
  by_cases h34 : c = 34
  · subst h34; rfl
  by_cases h92 : c = 92
  · subst h92; rfl
  by_cases h8 : c = 8
  · subst h8; rfl
  by_cases h9 : c = 9
  · subst h9; rfl
  by_cases h10 : c = 10
  · subst h10; rfl
  by_cases h12 : c = 12
  · subst h12; rfl
  by_cases h13 : c = 13
  · subst h13; rfl
  by_cases hctl : c < 32
  · have hesc : escChar c = 92 :: 117 :: hex4 c := by
      simp only [escChar]
      rw [if_neg h34, if_neg h92, if_neg h8, if_neg h9, if_neg h10, if_neg h12,
        if_neg h13, if_pos hctl]
    rw [hesc]
    simp only [hex4]
    rw [unescChar_u6]
    exact hexQuad_hexDig c (by omega)
  by_cases hplain : c < 127
  · have hesc : escChar c = [c] := by
      simp only [escChar]
      rw [if_neg h34, if_neg h92, if_neg h8, if_neg h9, if_neg h10, if_neg h12,
        if_neg h13, if_neg hctl, if_pos hplain]
    rw [hesc]
    rfl
  by_cases hbmp : c < 65536
  · have hesc : escChar c = 92 :: 117 :: hex4 c := by
      simp only [escChar]
      rw [if_neg h34, if_neg h92, if_neg h8, if_neg h9, if_neg h10, if_neg h12,
        if_neg h13, if_neg hctl, if_neg hplain, if_pos hbmp]
    rw [hesc]
    simp only [hex4]
    rw [unescChar_u6]
    exact hexQuad_hexDig c (by omega)
  · have hesc : escChar c = 92 :: 117 :: hex4 (55296 + (c - 65536) / 1024)
        ++ 92 :: 117 :: hex4 (56320 + (c - 65536) % 1024) := by
      simp only [escChar]
      rw [if_neg h34, if_neg h92, if_neg h8, if_neg h9, if_neg h10, if_neg h12,
        if_neg h13, if_neg hctl, if_neg hplain, if_neg hbmp]
    rw [hesc]
    have hhi := hexQuad_hexDig (55296 + (c - 65536) / 1024) (by omega)
    have hlo := hexQuad_hexDig (56320 + (c - 65536) % 1024) (by omega)
    simp only [hex4, List.cons_append, List.nil_append]
    rw [unescChar_u12, hhi]
    rw [Option.bind_eq_bind', Option.some_bind']
    rw [hlo]
    rw [Option.bind_eq_bind', Option.some_bind']
    rw [if_pos (by refine ⟨by omega, by omega, by omega, by omega⟩)]
    simp only [Option.some.injEq]
    omega

theorem escChar_inj {c1 c2 : Nat} (h1 : c1 < 1114112) (h2 : c2 < 1114112)
    (h : escChar c1 = escChar c2) : c1 = c2 := by
  have e1 := unescChar_escChar c1 h1
  rw [h, unescChar_escChar c2 h2] at e1
  exact (Option.some.injEq _ _).mp e1 |>.symm

theorem flatMap_escChar_set_ne (s : Str) (i c : Nat) (hi : i < s.length)
    (hvs : ∀ x ∈ s, x < 1114112) (hc : c < 1114112) (hne : c ≠ s.getD i 0) :
    (s.set i c).flatMap escChar ≠ s.flatMap escChar := by
  intro heq
  have hs : s = s.take i ++ s.getD i 0 :: s.drop (i + 1) := by
    rw [List.getD_eq_getElem s 0 hi]
    conv_lhs => rw [← List.take_append_drop i s]
    congr 1
    exact List.drop_eq_getElem_cons hi
  have hset : s.set i c = s.take i ++ c :: s.drop (i + 1) := by
    rw [List.set_eq_take_append_cons_drop, if_pos hi]
  rw [hset] at heq
  conv_rhs at heq => rw [hs]
  rw [List.flatMap_append, List.flatMap_append, List.flatMap_cons, List.flatMap_cons] at heq
  have heq2 := List.append_cancel_left heq
  have heq3 := List.append_cancel_right heq2
  have hmem : s.getD i 0 ∈ s := by
    rw [List.getD_eq_getElem s 0 hi]
    exact s.getElem_mem hi
  exact hne (escChar_inj hc (hvs _ hmem) heq3)

/-! ### The incremental mean -/

theorem welfordAux_apply {h : Nat} (ps : List (Fin h → ℚ)) :
    ∀ (m : Fin h → ℚ) (i : Nat), 0 < i + ps.length → ∀ j : Fin h,
      welfordAux ps m i j = ((i : ℚ) * m j + (ps.map (fun p => p j)).sum) / (i + ps.length) := by
  induction ps with
  | nil =>
      intro m i hi j
      have hiz : (i : ℚ) ≠ 0 := by
        have h0 : i ≠ 0 := by simp at hi; omega
        exact_mod_cast h0
      simp [welfordAux, mul_div_assoc, mul_div_cancel_left₀ _ hiz]
  | cons p t ih =>
      intro m i hi j
      have hne : ((i : ℚ) + 1) ≠ 0 := by positivity
      rw [welfordAux, ih (welfordStep m p i) (i + 1) (by omega) j, welfordStep]
      simp only [List.length_cons]
      push_cast
      rw [div_eq_div_iff ?hc ?hd]
      case hc =>
        have hpos : (0 : ℚ) < (i : ℚ) + 1 + (t.length : ℚ) := by positivity
        exact ne_of_gt hpos
      case hd =>
        have hpos : (0 : ℚ) < (i : ℚ) + ((t.length : ℚ) + 1) := by positivity
        exact ne_of_gt hpos
      field_simp
      ring

theorem projectedMeanOf_eq_arith {h : Nat} (ps : List (Fin h → ℚ)) (hne : ps ≠ []) :
    projectedMeanOf ps = fun j => (ps.map (fun p => p j)).sum / ps.length := by
  funext j
  have hlen : 0 < ps.length := List.length_pos.mpr hne
  rw [projectedMeanOf, welfordAux_apply ps _ 0 (by omega) j]
  simp

theorem projectedMeanOf_single {h : Nat} (p : Fin h → ℚ) : projectedMeanOf [p] = p := by
  funext j
  simp [projectedMeanOf, welfordAux, welfordStep]

/-! ### Canonical-serialisation facts -/

theorem canonicalDumps_mkClaim (hh : Str) (m : Option PyJson) (now : Str) :
    canonicalDumps (mkClaim hh m now) =
      [123, 34, 104, 97, 115, 104, 95, 104, 101, 120, 34, 58, 34]
        ++ hh.flatMap escChar
        ++ ([34, 44, 34, 109, 101, 116, 97, 100, 97, 116, 97, 34, 58]
        ++ (canonicalDumps (pyOrEmptyDict m)
        ++ ([44, 34, 116, 105, 109, 101, 115, 116, 97, 109, 112, 34, 58, 34]
        ++ (now.flatMap escChar ++ [34, 125])))) := by
  simp [canonicalDumps, dumpsW, mkClaim, dumpsWPairs, sortLe, insertLe, joinSep,
    strDump, s2n, strLeB, strLtB, escChar]

theorem dumpsWPairs_eq_map (sk : Bool) (si skv : List Nat) (kvs : List (Str × PyJson)) :
    dumpsWPairs sk si skv kvs = kvs.map (fun kv => (kv.1, dumpsW sk si skv kv.2)) := by
  induction kvs with
  | nil => rfl
  | cons kv t ih => simp [dumpsWPairs, ih]

theorem sortLe_keyed_eq {X : Type} (l1 l2 : List (Str × X)) (hperm : l1.Perm l2)
    (hnd : (l1.map Prod.fst).Nodup) :
    sortLe (fun a b => strLeB a.1 b.1) l1 = sortLe (fun a b => strLeB a.1 b.1) l2 := by
  have total : ∀ a b : Str × X, strLeB a.1 b.1 = true ∨ strLeB b.1 a.1 = true :=
    fun a b => strLeB_total a.1 b.1
  have htrans : ∀ a b c : Str × X, strLeB a.1 b.1 = true → strLeB b.1 c.1 = true →
      strLeB a.1 c.1 = true := fun a b c => strLeB_trans a.1 b.1 c.1
  have hnd2 : (l2.map Prod.fst).Nodup := (hperm.map Prod.fst).nodup_iff.mp hnd
  have key_pairwise : ∀ l : List (Str × X), (l.map Prod.fst).Nodup →
      (sortLe (fun a b => strLeB a.1 b.1) l).Pairwise (fun a b => strLtB a.1 b.1 = true) := by
    intro l hl
    have hle := sortLe_pairwise (fun a b : Str × X => strLeB a.1 b.1) total htrans l
    have hne : (sortLe (fun a b => strLeB a.1 b.1) l).Pairwise (fun a b => a.1 ≠ b.1) := by
      have : ((sortLe (fun a b => strLeB a.1 b.1) l).map Prod.fst).Nodup :=
        ((sortLe_perm _ l).map Prod.fst).nodup_iff.mpr hl
      exact List.pairwise_map.mp this
    exact (hle.and hne).imp (fun h => strLtB_of_le_of_ne h.1 h.2)
  exact eq_of_perm_of_pairwise
    (fun a b h1 h2 => strLtB_asymm a.1 b.1 h1 h2)
    _ _ ((sortLe_perm _ l1).trans (hperm.trans (sortLe_perm _ l2).symm))
    (key_pairwise l1 hnd) (key_pairwise l2 hnd2)

theorem canonicalDumps_obj_perm (m1 m2 : List (Str × PyJson)) (hperm : m1.Perm m2)
    (hnd : (m1.map Prod.fst).Nodup) :
    canonicalDumps (.obj m1) = canonicalDumps (.obj m2) := by
  have hmap : (dumpsWPairs true [44] [58] m1).Perm (dumpsWPairs true [44] [58] m2) := by
    rw [dumpsWPairs_eq_map, dumpsWPairs_eq_map]
    exact hperm.map _
  have hnd1 : ((dumpsWPairs true [44] [58] m1).map Prod.fst).Nodup := by
    rw [dumpsWPairs_eq_map, List.map_map]
    simpa [Function.comp] using hnd
  have hsort := sortLe_keyed_eq _ _ hmap hnd1
  simp only [canonicalDumps, dumpsW, if_true]
  rw [hsort]

theorem canonicalDumps_metadata_perm (m1 m2 : List (Str × PyJson)) (hperm : m1.Perm m2)
    (hnd : (m1.map Prod.fst).Nodup) :
    canonicalDumps (pyOrEmptyDict (some (.obj m1)))
      = canonicalDumps (pyOrEmptyDict (some (.obj m2))) := by
  by_cases h1 : m1.isEmpty
  · have h2 : m2.isEmpty := by
      have := hperm.length_eq
      cases m2 with
      | nil => rfl
      | cons x t => cases m1 with
          | nil => simp at this
          | cons y s => simp at h1
    simp [pyOrEmptyDict, pyTruthy, h1, h2]
  · have h2 : ¬ m2.isEmpty := by
      intro hc
      have := hperm.length_eq
      cases m2 with
      | nil => cases m1 with
          | nil => exact h1 rfl
          | cons y s => simp at this
      | cons x t => simp at hc
    simp only [pyOrEmptyDict, pyTruthy, h1, h2, Bool.not_false, if_true,
      Bool.not_eq_true]
    exact canonicalDumps_obj_perm m1 m2 hperm hnd

/-! ### Except plumbing -/

theorem except_ok_bind {ε α β : Type} (a : α) (f : α → Except ε β) :
    (Except.ok a : Except ε α) >>= f = f a := rfl

theorem except_error_bind {ε α β : Type} (e : ε) (f : α → Except ε β) :
    (Except.error e : Except ε α) >>= f = Except.error e := rfl

theorem verifyFromParts_some_some (ops : CryptoOps) (claim proof : PyJson) :
    verifyFromParts ops (some claim) (some proof) =
      if !pyTruthy claim || !pyTruthy proof then .ok (false, some missingPartsMsg)
      else verifyChecks ops claim proof := rfl

theorem verifyFromParts_none_left (ops : CryptoOps) (p? : Option PyJson) :
    verifyFromParts ops Option.none p? = .ok (false, some missingPartsMsg) := by
  cases p? <;> rfl

theorem verifyFromParts_none_right (ops : CryptoOps) (c? : Option PyJson) :
    verifyFromParts ops c? Option.none = .ok (false, some missingPartsMsg) := by
  cases c? <;> rfl

theorem verifyFromParts_shape (ops : CryptoOps) (c? p? : Option PyJson) :
    verifyFromParts ops c? p? = .ok (true, Option.none) ∨
    (∃ m, verifyFromParts ops c? p? = .ok (false, some m)) ∨
    (∃ e, verifyFromParts ops c? p? = .error e) := by
  cases c? with
  | none => right; left; exact ⟨_, rfl⟩
  | some claim =>
    cases p? with
    | none => right; left; exact ⟨_, rfl⟩
    | some proof =>
      rw [verifyFromParts_some_some]
      by_cases htr : (!pyTruthy claim || !pyTruthy proof) = true
      · rw [if_pos htr]
        right; left; exact ⟨_, rfl⟩
      · rw [if_neg htr]
        unfold verifyChecks
        rcases h1 : pyIndex proof (s2n "signature") with e1 | v1
        · right; right; exact ⟨e1, rfl⟩
        · rw [except_ok_bind]
          rcases h2 : asStr v1 with e2 | s2
          · right; right; exact ⟨e2, rfl⟩
          · rw [except_ok_bind]
            rcases h3 : ops.b64decode s2 with e3 | sig
            · right; right; exact ⟨e3, rfl⟩
            · rw [except_ok_bind]
              rcases h4 : pyIndex proof (s2n "public_key") with e4 | v4
              · right; right; exact ⟨e4, rfl⟩
              · rw [except_ok_bind]
                rcases h5 : asStr v4 with e5 | s5
                · right; right; exact ⟨e5, rfl⟩
                · rw [except_ok_bind]
                  rcases h6 : ops.b64decode s5 with e6 | pkb
                  · right; right; exact ⟨e6, rfl⟩
                  · rw [except_ok_bind]
                    rcases h7 : ops.fromPublicBytes pkb with e7 | pk
                    · right; right; exact ⟨e7, rfl⟩
                    · rw [except_ok_bind]
                      by_cases hv : ops.verifyRaw pk sig (canonicalDumps claim) = true
                      · rw [if_pos hv]
                        left; rfl
                      · rw [if_neg hv]
                        right; right; exact ⟨_, rfl⟩

/-! ### The claims -/

/-- C6: `verify_signature` fails closed on every input dictionary, including
arbitrary attacker-controlled ones. (1) The result is always a pair, either
`(True, None)` or `(False, reason)` with a non-null reason — no exception ever
escapes the `except` clause. (2) A missing or falsy `claim` or `proof` field
yields `(False, missing-parts reason)`. (3) Any exception raised inside the
checks — wrong field type, undecodable base64 in the key or signature
encoding, bad public-key bytes, the failed Ed25519 check — is caught and
returned as `(False, "Verification failed: ...")`. (4) In particular, when
both fields are present and truthy and every decoding step succeeds but the
cryptographic check itself fails, the verdict is
`(False, "Verification failed: ")`. (5) Conversely, a `(True, None)` verdict
certifies that both fields were present and truthy, the signature and public
key base64-decoded, the Ed25519 key was reconstructed from the bytes and the
cryptographic check passed — so a missing field, a malformed key encoding, a
wrong key type or a cryptographic mismatch can never produce `valid = True`,
only `valid = False` with a reason. -/
theorem c6_verify_fails_closed (ops : CryptoOps) (doc : PyDict) :
    (verify_signature ops doc = (true, Option.none) ∨
      ∃ r, verify_signature ops doc = (false, some r)) ∧
    ((dictGet doc (s2n "claim") = Option.none ∨
      dictGet doc (s2n "proof") = Option.none ∨
      (∃ c, dictGet doc (s2n "claim") = some c ∧ pyTruthy c = false) ∨
      (∃ p, dictGet doc (s2n "proof") = some p ∧ pyTruthy p = false)) →
      verify_signature ops doc = (false, some missingPartsMsg)) ∧
    (∀ e, verifyFromParts ops (dictGet doc (s2n "claim"))
        (dictGet doc (s2n "proof")) = .error e →
      verify_signature ops doc
        = (false, some (s2n "Verification failed: " ++ pyErrMsg e))) ∧
    (∀ claim proof sf ss sig pf ps pkb pk,
      dictGet doc (s2n "claim") = some claim →
      dictGet doc (s2n "proof") = some proof →
      pyTruthy claim = true → pyTruthy proof = true →
      pyIndex proof (s2n "signature") = .ok sf → asStr sf = .ok ss →
      ops.b64decode ss = .ok sig →
      pyIndex proof (s2n "public_key") = .ok pf → asStr pf = .ok ps →
      ops.b64decode ps = .ok pkb →
      ops.fromPublicBytes pkb = .ok pk →
      ops.verifyRaw pk sig (canonicalDumps claim) = false →
      verify_signature ops doc = (false, some (s2n "Verification failed: "))) ∧
    (verify_signature ops doc = (true, Option.none) →
      ∃ claim proof sf ss sig pf ps pkb pk,
        dictGet doc (s2n "claim") = some claim ∧
        dictGet doc (s2n "proof") = some proof ∧
        pyTruthy claim = true ∧ pyTruthy proof = true ∧
        pyIndex proof (s2n "signature") = .ok sf ∧ asStr sf = .ok ss ∧
        ops.b64decode ss = .ok sig ∧
        pyIndex proof (s2n "public_key") = .ok pf ∧ asStr pf = .ok ps ∧
        ops.b64decode ps = .ok pkb ∧
        ops.fromPublicBytes pkb = .ok pk ∧
        ops.verifyRaw pk sig (canonicalDumps claim) = true) := by
  refine ⟨?_, ?_, ?_, ?_, ?_⟩
  · have h := verifyFromParts_shape ops (dictGet doc (s2n "claim"))
      (dictGet doc (s2n "proof"))
    unfold verify_signature
    rcases h with h | ⟨m, h⟩ | ⟨e, h⟩ <;> rw [h]
    · left; rfl
    · right; exact ⟨m, rfl⟩
    · right; exact ⟨_, rfl⟩
  · intro hmiss
    unfold verify_signature
    rcases hmiss with h | h | ⟨c, hcv, htc⟩ | ⟨p, hpv, htp⟩
    · rw [h, verifyFromParts_none_left]
    · rw [h, verifyFromParts_none_right]
    · rw [hcv]
      cases hp : dictGet doc (s2n "proof") with
      | none => rw [verifyFromParts_none_right]
      | some p =>
        rw [verifyFromParts_some_some, if_pos (by rw [htc]; rfl)]
    · rw [hpv]
      cases hc : dictGet doc (s2n "claim") with
      | none => rw [verifyFromParts_none_left]
      | some c =>
        rw [verifyFromParts_some_some, if_pos (by simp [htp])]
  · intro e he
    unfold verify_signature
    rw [he]
  · intro claim proof sf ss sig pf ps pkb pk hc hp htc htp h1 h2 h3 h4 h5 h6 h7 hv
    unfold verify_signature
    rw [hc, hp, verifyFromParts_some_some, if_neg (by simp [htc, htp])]
    simp only [verifyChecks]
    rw [h1, except_ok_bind, h2, except_ok_bind, h3, except_ok_bind, h4,
        except_ok_bind, h5, except_ok_bind, h6, except_ok_bind, h7,
        except_ok_bind, if_neg (by simp [hv])]
    rfl
  · intro htrue
    have hok : verifyFromParts ops (dictGet doc (s2n "claim"))
        (dictGet doc (s2n "proof")) = .ok (true, Option.none) := by
      unfold verify_signature at htrue
      cases hv0 : verifyFromParts ops (dictGet doc (s2n "claim"))
          (dictGet doc (s2n "proof")) with
      | error e =>
        rw [hv0] at htrue
        have hx : ((false : Bool), some (s2n "Verification failed: " ++ pyErrMsg e))
            = ((true : Bool), (Option.none : Option Str)) := htrue
        exact Bool.noConfusion (congrArg Prod.fst hx)
      | ok r =>
        rw [hv0] at htrue
        exact congrArg Except.ok htrue
    cases hc : dictGet doc (s2n "claim") with
    | none =>
      rw [hc, verifyFromParts_none_left] at hok
      injection hok with h
      exact Bool.noConfusion (congrArg Prod.fst h)
    | some claim =>
      cases hp : dictGet doc (s2n "proof") with
      | none =>
        rw [hc, hp, verifyFromParts_none_right] at hok
        injection hok with h
        exact Bool.noConfusion (congrArg Prod.fst h)
      | some proof =>
        rw [hc, hp, verifyFromParts_some_some] at hok
        by_cases htr : (!pyTruthy claim || !pyTruthy proof) = true
        · rw [if_pos htr] at hok
          injection hok with h
          exact Bool.noConfusion (congrArg Prod.fst h)
        · have htc : pyTruthy claim = true := by
            cases h : pyTruthy claim
            · exact absurd (by rw [h]; rfl) htr
            · rfl
          have htp : pyTruthy proof = true := by
            cases h : pyTruthy proof
            · exact absurd (by rw [h]; simp) htr
            · rfl
          rw [if_neg htr] at hok
          simp only [verifyChecks] at hok
          cases h1 : pyIndex proof (s2n "signature") with
          | error e1 => rw [h1, except_error_bind] at hok; exact Except.noConfusion hok
          | ok sf =>
            rw [h1, except_ok_bind] at hok
            cases h2 : asStr sf with
            | error e2 => rw [h2, except_error_bind] at hok; exact Except.noConfusion hok
            | ok ss =>
              rw [h2, except_ok_bind] at hok
              cases h3 : ops.b64decode ss with
              | error e3 => rw [h3, except_error_bind] at hok; exact Except.noConfusion hok
              | ok sig =>
                rw [h3, except_ok_bind] at hok
                cases h4 : pyIndex proof (s2n "public_key") with
                | error e4 => rw [h4, except_error_bind] at hok; exact Except.noConfusion hok
                | ok pf =>
                  rw [h4, except_ok_bind] at hok
                  cases h5 : asStr pf with
                  | error e5 => rw [h5, except_error_bind] at hok; exact Except.noConfusion hok
                  | ok ps =>
                    rw [h5, except_ok_bind] at hok
                    cases h6 : ops.b64decode ps with
                    | error e6 => rw [h6, except_error_bind] at hok; exact Except.noConfusion hok
                    | ok pkb =>
                      rw [h6, except_ok_bind] at hok
                      cases h7 : ops.fromPublicBytes pkb with
                      | error e7 => rw [h7, except_error_bind] at hok; exact Except.noConfusion hok
                      | ok pk =>
                        rw [h7, except_ok_bind] at hok
                        by_cases hv : ops.verifyRaw pk sig (canonicalDumps claim) = true
                        · exact ⟨claim, proof, sf, ss, sig, pf, ps, pkb, pk,
                            rfl, rfl, htc, htp, h1, h2, h3, h4, h5, h6, h7, hv⟩
                        · rw [if_neg hv] at hok
                          exact Except.noConfusion hok

theorem c6_witness :
    verify_signature trivialCryptoOps
        [(s2n "anchors", PyJson.arr []), (s2n "version", PyJson.str (s2n "1.0"))]
      = (false, some missingPartsMsg) ∧
    verify_signature trivialCryptoOps
        [(s2n "claim", PyJson.str (s2n "c")),
         (s2n "proof", PyJson.obj [(s2n "signature", PyJson.str []),
                                   (s2n "public_key", PyJson.str [])])]
      = (false, some (s2n "Verification failed: ")) :=
  ⟨(c6_verify_fails_closed trivialCryptoOps
      [(s2n "anchors", PyJson.arr []), (s2n "version", PyJson.str (s2n "1.0"))]).2.1
      (Or.inl rfl),
   (c6_verify_fails_closed trivialCryptoOps
      [(s2n "claim", PyJson.str (s2n "c")),
       (s2n "proof", PyJson.obj [(s2n "signature", PyJson.str []),
                                 (s2n "public_key", PyJson.str [])])]).2.2.2.1
      (PyJson.str (s2n "c"))
      (PyJson.obj [(s2n "signature", PyJson.str []),
                   (s2n "public_key", PyJson.str [])])
      (PyJson.str []) [] [] (PyJson.str []) [] [] []
      rfl rfl rfl rfl rfl rfl rfl rfl rfl rfl rfl rfl⟩

/-- C10: the verdict of `verify_signature` depends only on the values of the
`claim` and `proof` fields: documents agreeing on those two fields receive
identical `(valid, reason)` results, regardless of `anchors`, `version` or any
other entry — so anchors added, removed or tampered with after signing never
change the verification verdict. -/
theorem c10_verify_reads_only_claim_proof (ops : CryptoOps) (d1 d2 : PyDict)
    (hclaim : dictGet d1 (s2n "claim") = dictGet d2 (s2n "claim"))
    (hproof : dictGet d1 (s2n "proof") = dictGet d2 (s2n "proof")) :
    verify_signature ops d1 = verify_signature ops d2 := by
  simp only [verify_signature, hclaim, hproof]

theorem c10_witness :
    dictGet [(s2n "claim", PyJson.null), (s2n "anchors", PyJson.arr [PyJson.null])]
        (s2n "claim")
      = dictGet [(s2n "claim", PyJson.null), (s2n "version", PyJson.str (s2n "2.0"))]
        (s2n "claim") ∧
    dictGet [(s2n "claim", PyJson.null), (s2n "anchors", PyJson.arr [PyJson.null])]
        (s2n "proof")
      = dictGet [(s2n "claim", PyJson.null), (s2n "version", PyJson.str (s2n "2.0"))]
        (s2n "proof") ∧
    verify_signature trivialCryptoOps
        [(s2n "claim", PyJson.null), (s2n "anchors", PyJson.arr [PyJson.null])]
      = verify_signature trivialCryptoOps
        [(s2n "claim", PyJson.null), (s2n "version", PyJson.str (s2n "2.0"))] :=
  ⟨rfl, rfl, c10_verify_reads_only_claim_proof trivialCryptoOps _ _ rfl rfl⟩

theorem verifyChecks_signedProof (ops : CryptoOps) (sk : List Nat) (now : Str)
    (claim : PyJson) (S : List Nat)
    (hrt : B64RoundTrip ops) (hpub : PubBytesOk ops sk) :
    verifyChecks ops claim (mkProof ops sk now S) =
      if ops.verifyRaw (ops.publicOf sk) S (canonicalDumps claim) then
        .ok (true, Option.none)
      else .error .invalidSignature := by
  unfold verifyChecks
  rw [show pyIndex (mkProof ops sk now S) (s2n "signature")
      = .ok (.str (ops.b64encode S)) from rfl, except_ok_bind]
  rw [show asStr (.str (ops.b64encode S)) = .ok (ops.b64encode S) from rfl,
    except_ok_bind]
  rw [hrt S, except_ok_bind]
  rw [show pyIndex (mkProof ops sk now S) (s2n "public_key")
      = .ok (.str (ops.b64encode (ops.publicOf sk))) from rfl, except_ok_bind]
  rw [show asStr (.str (ops.b64encode (ops.publicOf sk)))
      = .ok (ops.b64encode (ops.publicOf sk)) from rfl, except_ok_bind]
  rw [hrt (ops.publicOf sk), except_ok_bind]
  rw [hpub, except_ok_bind]

theorem verify_signature_signedDoc (ops : CryptoOps) (sk : List Nat)
    (now hash_hex : Str) (metadata : Option PyJson)
    (hcor : SigCorrect ops sk) (hrt : B64RoundTrip ops) (hpub : PubBytesOk ops sk) :
    verify_signature ops (signedDoc ops sk now hash_hex metadata)
      = (true, Option.none) := by
  unfold verify_signature
  rw [show dictGet (signedDoc ops sk now hash_hex metadata) (s2n "claim")
      = some (mkClaim hash_hex metadata now) from rfl]
  rw [show dictGet (signedDoc ops sk now hash_hex metadata) (s2n "proof")
      = some (mkProof ops sk now
          (ops.sign sk (canonicalDumps (mkClaim hash_hex metadata now)))) from rfl]
  rw [show verifyFromParts ops (some (mkClaim hash_hex metadata now))
        (some (mkProof ops sk now
          (ops.sign sk (canonicalDumps (mkClaim hash_hex metadata now)))))
      = verifyChecks ops (mkClaim hash_hex metadata now)
          (mkProof ops sk now
            (ops.sign sk (canonicalDumps (mkClaim hash_hex metadata now)))) from rfl]
  rw [verifyChecks_signedProof ops sk now _ _ hrt hpub]
  rw [if_pos (hcor (canonicalDumps (mkClaim hash_hex metadata now)))]

/-- C2: for every valid 64-character hex fingerprint and every metadata map,
verifying the document produced by `sign_hash` under a loaded identity yields
`(True, None)` (given the Ed25519 and base64 library contracts), and because
the claim is serialised with the canonical key-sorted whitespace-free encoding,
two insertion orders of the same metadata map produce bit-identical claim
bytes for signing and verification. -/
theorem c2_sign_verify_round_trip (ops : CryptoOps) (sk : List Nat)
    (now hash_hex : Str) (m1 m2 : List (Str × PyJson))
    (hcor : SigCorrect ops sk) (hrt : B64RoundTrip ops) (hpub : PubBytesOk ops sk)
    (hlen : hash_hex.length = 64) (hhex : ∀ ch ∈ hash_hex, isHexDigit ch = true)
    (hperm : m1.Perm m2) (hnd : (m1.map Prod.fst).Nodup) :
    ∃ doc, sign_hash ops (some sk) now hash_hex (some (.obj m1)) = .ok doc ∧
      verify_signature ops doc = (true, Option.none) ∧
      canonicalDumps (mkClaim hash_hex (some (.obj m1)) now)
        = canonicalDumps (mkClaim hash_hex (some (.obj m2)) now) := by
  refine ⟨signedDoc ops sk now hash_hex (some (.obj m1)), ?_,
    verify_signature_signedDoc ops sk now hash_hex (some (.obj m1)) hcor hrt hpub, ?_⟩
  · simp only [sign_hash]
    rw [if_neg (by omega)]
  · rw [canonicalDumps_mkClaim, canonicalDumps_mkClaim,
      canonicalDumps_metadata_perm m1 m2 hperm hnd]

theorem c2_witness :
    ∃ doc, sign_hash trivialCryptoOps (some []) [] (List.replicate 64 48)
        (some (.obj [(s2n "b", PyJson.null), (s2n "a", PyJson.null)])) = .ok doc ∧
      verify_signature trivialCryptoOps doc = (true, Option.none) ∧
      canonicalDumps (mkClaim (List.replicate 64 48)
          (some (.obj [(s2n "b", PyJson.null), (s2n "a", PyJson.null)])) [])
        = canonicalDumps (mkClaim (List.replicate 64 48)
          (some (.obj [(s2n "a", PyJson.null), (s2n "b", PyJson.null)])) []) :=
  c2_sign_verify_round_trip trivialCryptoOps [] [] (List.replicate 64 48)
    [(s2n "b", PyJson.null), (s2n "a", PyJson.null)]
    [(s2n "a", PyJson.null), (s2n "b", PyJson.null)]
    (by intro msg; simp [trivialCryptoOps])
    (fun bs => rfl) rfl (by simp) (by decide)
    (List.Perm.swap (s2n "a", PyJson.null) (s2n "b", PyJson.null) [])
    (by decide)

/-- C7: in a document produced by `sign_hash`, replacing the claim by the same
claim with any single character of `hash_hex` changed (position `i`, new
character `c`) while the proof stays unchanged makes `verify_signature` return
`(False, reason)` with a non-null reason: the canonical re-serialisation of the
mutated claim differs from the signed bytes, so the Ed25519 check rejects
(given that Ed25519 signatures bind the signed message). -/
theorem c7_tamper_detection (ops : CryptoOps) (sk : List Nat) (now hash_hex : Str)
    (metadata : Option PyJson) (i c : Nat)
    (hbind : SigBinding ops sk) (hrt : B64RoundTrip ops) (hpub : PubBytesOk ops sk)
    (hlen : hash_hex.length = 64) (hi : i < 64)
    (hvs : ∀ x ∈ hash_hex, x < 1114112) (hc : c < 1114112)
    (hne : c ≠ hash_hex.getD i 0) :
    ∃ doc r, sign_hash ops (some sk) now hash_hex metadata = .ok doc ∧
      verify_signature ops
        (dictPut doc (s2n "claim") (mkClaim (hash_hex.set i c) metadata now))
        = (false, some r) := by
  refine ⟨signedDoc ops sk now hash_hex metadata,
    s2n "Verification failed: " ++ pyErrMsg .invalidSignature, ?_, ?_⟩
  · simp only [sign_hash]
    rw [if_neg (by omega)]
  · have hfalse : ops.verifyRaw (ops.publicOf sk)
        (ops.sign sk (canonicalDumps (mkClaim hash_hex metadata now)))
        (canonicalDumps (mkClaim (hash_hex.set i c) metadata now)) = false := by
      cases hb : ops.verifyRaw (ops.publicOf sk)
          (ops.sign sk (canonicalDumps (mkClaim hash_hex metadata now)))
          (canonicalDumps (mkClaim (hash_hex.set i c) metadata now)) with
      | false => rfl
      | true =>
          exfalso
          have heq := hbind (canonicalDumps (mkClaim hash_hex metadata now))
            (canonicalDumps (mkClaim (hash_hex.set i c) metadata now)) hb
          rw [canonicalDumps_mkClaim, canonicalDumps_mkClaim,
            List.append_assoc, List.append_assoc] at heq
          have h2 := List.append_cancel_left heq
          have h3 := List.append_cancel_right h2
          exact flatMap_escChar_set_ne hash_hex i c (by omega) hvs hc hne h3
    unfold verify_signature
    rw [show dictGet (dictPut (signedDoc ops sk now hash_hex metadata) (s2n "claim")
          (mkClaim (hash_hex.set i c) metadata now)) (s2n "claim")
        = some (mkClaim (hash_hex.set i c) metadata now) from rfl]
    rw [show dictGet (dictPut (signedDoc ops sk now hash_hex metadata) (s2n "claim")
          (mkClaim (hash_hex.set i c) metadata now)) (s2n "proof")
        = some (mkProof ops sk now
            (ops.sign sk (canonicalDumps (mkClaim hash_hex metadata now)))) from rfl]
    rw [show verifyFromParts ops (some (mkClaim (hash_hex.set i c) metadata now))
          (some (mkProof ops sk now
            (ops.sign sk (canonicalDumps (mkClaim hash_hex metadata now)))))
        = verifyChecks ops (mkClaim (hash_hex.set i c) metadata now)
            (mkProof ops sk now
              (ops.sign sk (canonicalDumps (mkClaim hash_hex metadata now)))) from rfl]
    rw [verifyChecks_signedProof ops sk now _ _ hrt hpub]
    rw [if_neg (by simp [hfalse])]

theorem c7_witness :
    ∃ doc r, sign_hash trivialCryptoOps (some []) [] (List.replicate 64 48)
        Option.none = .ok doc ∧
      verify_signature trivialCryptoOps
        (dictPut doc (s2n "claim")
          (mkClaim ((List.replicate 64 48).set 0 49) Option.none []))
        = (false, some r) :=
  c7_tamper_detection trivialCryptoOps [] [] (List.replicate 64 48) Option.none 0 49
    (by intro m m' h; simp [trivialCryptoOps] at h; exact h.symm)
    (fun bs => rfl) rfl (by simp) (by omega) (by decide) (by decide) (by decide)

/-- C9: the incrementally maintained running mean of `compute_perceptual_hash`
(per-frame update `projected_mean += (projected - projected_mean) / (i + 1)`),
taken over exact rational arithmetic, equals the plain arithmetic mean of the
projected vectors (their pointwise sum divided by the frame count); a
single-frame input degenerates to that one projected vector, and median
thresholding of either mean yields the same hash bits. -/
theorem c9_incremental_mean_eq_arithmetic_mean (h : Nat) (ps : List (Fin h → ℚ))
    (hne : ps ≠ []) :
    projectedMeanOf ps = (fun j => (ps.map (fun p => p j)).sum / ps.length) ∧
    (∀ p : Fin h → ℚ, projectedMeanOf [p] = p) ∧
    binarize h (projectedMeanOf ps)
      = binarize h (fun j => (ps.map (fun p => p j)).sum / ps.length) := by
  refine ⟨projectedMeanOf_eq_arith ps hne, fun p => projectedMeanOf_single p, ?_⟩
  rw [projectedMeanOf_eq_arith ps hne]

theorem c9_witness :
    ([fun _ => (2 : ℚ)] : List (Fin 1 → ℚ)) ≠ [] ∧
    projectedMeanOf ([fun _ => (2 : ℚ)] : List (Fin 1 → ℚ))
      = (fun j => ((([fun _ => (2 : ℚ)] : List (Fin 1 → ℚ)).map (fun p => p j)).sum
          / ([fun _ => (2 : ℚ)] : List (Fin 1 → ℚ)).length)) :=
  ⟨List.cons_ne_nil _ _,
    (c9_incremental_mean_eq_arithmetic_mean 1 _ (List.cons_ne_nil _ _)).1⟩

theorem mergeRow_keeps_key (a : StoreArgs) (mj : Option Str) (r : HashRecord) :
    (mergeRow a mj r).id = r.id ∧ (mergeRow a mj r).hash = r.hash ∧
    (mergeRow a mj r).hash_hex = r.hash_hex ∧
    (mergeRow a mj r).created_at = r.created_at := by
  simp [mergeRow]

theorem coalesce_none {α : Type} (old : Option α) : coalesce Option.none old = old := rfl

/-- C4: storing a fingerprint that already has a record updates that record in
place with COALESCE semantics — a field passed as `None` is left untouched and
a field can only change when a non-null value was passed — keeps `created_at`,
creates no second row (the fingerprint-uniqueness invariant is preserved),
leaves rows with other fingerprints unchanged, and returns the pre-existing
record's id. -/
theorem c4_store_merge (db : HashDatabase) (now : Str) (hash_binary : List Bool)
    (a : StoreArgs) (r0 : HashRecord)
    (hmem : r0 ∈ db.rows) (hhash : r0.hash = bitsStr hash_binary)
    (hnd : (db.rows.map (fun r => r.hash)).Nodup) :
    (store_hash db now hash_binary a).2 = some r0.id ∧
    (store_hash db now hash_binary a).1.rows.length = db.rows.length ∧
    ((store_hash db now hash_binary a).1.rows.map (fun r => r.hash)).Nodup ∧
    (∀ r ∈ db.rows, r.hash ≠ r0.hash → r ∈ (store_hash db now hash_binary a).1.rows) ∧
    ∃ r1 ∈ (store_hash db now hash_binary a).1.rows,
      r1.id = r0.id ∧ r1.hash = r0.hash ∧ r1.created_at = r0.created_at ∧
      (a.video_id = Option.none → r1.video_id = r0.video_id) ∧
      (r1.video_id ≠ r0.video_id → a.video_id ≠ Option.none) ∧
      (a.platform = Option.none → r1.platform = r0.platform) ∧
      (r1.platform ≠ r0.platform → a.platform ≠ Option.none) ∧
      (a.upload_date = Option.none → r1.upload_date = r0.upload_date) ∧
      (r1.upload_date ≠ r0.upload_date → a.upload_date ≠ Option.none) ∧
      (a.file_path = Option.none → r1.file_path = r0.file_path) ∧
      (r1.file_path ≠ r0.file_path → a.file_path ≠ Option.none) ∧
      (a.frame_count = Option.none → r1.frame_count = r0.frame_count) ∧
      (r1.frame_count ≠ r0.frame_count → a.frame_count ≠ Option.none) ∧
      (a.metadata = Option.none → r1.metadata = r0.metadata) ∧
      (r1.metadata ≠ r0.metadata → a.metadata ≠ Option.none) ∧
      (a.signature = Option.none → r1.signature = r0.signature) ∧
      (r1.signature ≠ r0.signature → a.signature ≠ Option.none) ∧
      (a.public_key = Option.none → r1.public_key = r0.public_key) ∧
      (r1.public_key ≠ r0.public_key → a.public_key ≠ Option.none) ∧
      (a.key_id = Option.none → r1.key_id = r0.key_id) ∧
      (r1.key_id ≠ r0.key_id → a.key_id ≠ Option.none) ∧
      (a.signed_at = Option.none → r1.signed_at = r0.signed_at) ∧
      (r1.signed_at ≠ r0.signed_at → a.signed_at ≠ Option.none) ∧
      (a.signature_version = Option.none → r1.signature_version = r0.signature_version) ∧
      (r1.signature_version ≠ r0.signature_version → a.signature_version ≠ Option.none) ∧
      (∀ r' ∈ (store_hash db now hash_binary a).1.rows, r'.hash = r0.hash → r' = r1) := by
  have hinj : ∀ x ∈ db.rows, ∀ y ∈ db.rows, x.hash = y.hash → x = y :=
    List.inj_on_of_nodup_map hnd
  have hany : db.rows.any (fun r => r.hash == bitsStr hash_binary) = true :=
    List.any_eq_true.mpr ⟨r0, hmem, by simp [hhash]⟩
  have hred : store_hash db now hash_binary a =
      ({ rows := db.rows.map (fun r =>
           if r.hash == bitsStr hash_binary then
             mergeRow a (metadataJson a.metadata) r else r),
         nextId := db.nextId },
       ((db.rows.map (fun r =>
           if r.hash == bitsStr hash_binary then
             mergeRow a (metadataJson a.metadata) r else r)).find?
         (fun r => r.hash == bitsStr hash_binary)).map (fun r => r.id)) := by
    simp only [store_hash, hany, if_true]
  have hhash_pres : ∀ r : HashRecord,
      (if r.hash == bitsStr hash_binary then
        mergeRow a (metadataJson a.metadata) r else r).hash = r.hash := by
    intro r
    by_cases h : r.hash == bitsStr hash_binary
    · simp [h, mergeRow]
    · simp [h]
  have hmapped : (store_hash db now hash_binary a).1.rows = db.rows.map (fun r =>
      if r.hash == bitsStr hash_binary then
        mergeRow a (metadataJson a.metadata) r else r) := by rw [hred]
  have hr1mem : mergeRow a (metadataJson a.metadata) r0 ∈
      (store_hash db now hash_binary a).1.rows := by
    rw [hmapped]
    refine List.mem_map.mpr ⟨r0, hmem, ?_⟩
    simp [hhash]
  have huniq : ∀ r' ∈ (store_hash db now hash_binary a).1.rows, r'.hash = r0.hash →
      r' = mergeRow a (metadataJson a.metadata) r0 := by
    intro r' hr' hh'
    rw [hmapped] at hr'
    rcases List.mem_map.mp hr' with ⟨r, hr, hrr⟩
    by_cases hb : r.hash == bitsStr hash_binary
    · rw [if_pos hb] at hrr
      have : r = r0 := hinj r hr r0 hmem (by rw [beq_iff_eq] at hb; rw [hb, ← hhash])
      rw [← hrr, this]
    · rw [if_neg hb] at hrr
      exfalso
      apply hb
      rw [hrr, beq_iff_eq, hh', hhash]
  have hfind : ((store_hash db now hash_binary a).1.rows.find?
      (fun r => r.hash == bitsStr hash_binary)).map (fun r => r.id) = some r0.id := by
    cases hf : (store_hash db now hash_binary a).1.rows.find?
        (fun r => r.hash == bitsStr hash_binary) with
    | none =>
        exfalso
        have := List.find?_eq_none.mp hf _ hr1mem
        simp [mergeRow, hhash] at this
    | some x =>
        have hx1 := List.find?_some hf
        have hx2 := List.mem_of_find?_eq_some hf
        have : x = mergeRow a (metadataJson a.metadata) r0 :=
          huniq x hx2 (by rw [beq_iff_eq] at hx1; rw [hx1, ← hhash])
        simp [this, mergeRow]
  refine ⟨?_, ?_, ?_, ?_, ?_⟩
  · rw [hred]
    rw [hred] at hfind
    exact hfind
  · rw [hmapped, List.length_map]
  · rw [hmapped, List.map_map]
    have : ((fun r : HashRecord => r.hash) ∘ (fun r =>
        if r.hash == bitsStr hash_binary then
          mergeRow a (metadataJson a.metadata) r else r)) =
        fun r : HashRecord => r.hash := by
      funext r
      exact hhash_pres r
    rw [this]
    exact hnd
  · intro r hr hne
    rw [hmapped]
    refine List.mem_map.mpr ⟨r, hr, ?_⟩
    rw [if_neg]
    simp only [beq_iff_eq]
    rw [← hhash]
    exact hne
  · refine ⟨mergeRow a (metadataJson a.metadata) r0, hr1mem,
      by simp [mergeRow], by simp [mergeRow], by simp [mergeRow],
      fun h => by simp [mergeRow, coalesce, h],
      fun hne h => hne (by simp [mergeRow, coalesce, h]),
      fun h => by simp [mergeRow, coalesce, h],
      fun hne h => hne (by simp [mergeRow, coalesce, h]),
      fun h => by simp [mergeRow, coalesce, h],
      fun hne h => hne (by simp [mergeRow, coalesce, h]),
      fun h => by simp [mergeRow, coalesce, h],
      fun hne h => hne (by simp [mergeRow, coalesce, h]),
      fun h => by simp [mergeRow, coalesce, h],
      fun hne h => hne (by simp [mergeRow, coalesce, h]),
      fun h => by simp [mergeRow, coalesce, metadataJson, h],
      fun hne h => hne (by simp [mergeRow, coalesce, metadataJson, h]),
      fun h => by simp [mergeRow, coalesce, h],
      fun hne h => hne (by simp [mergeRow, coalesce, h]),
      fun h => by simp [mergeRow, coalesce, h],
      fun hne h => hne (by simp [mergeRow, coalesce, h]),
      fun h => by simp [mergeRow, coalesce, h],
      fun hne h => hne (by simp [mergeRow, coalesce, h]),
      fun h => by simp [mergeRow, coalesce, h],
      fun hne h => hne (by simp [mergeRow, coalesce, h]),
      fun h => by simp [mergeRow, coalesce, h],
      fun hne h => hne (by simp [mergeRow, coalesce, h]),
      huniq⟩

theorem lookup_append_of_none {β : Type} (d : List (Str × β)) (k : Str) (v : β)
    (h : d.lookup k = Option.none) : (d ++ [(k, v)]).lookup k = some v := by
  induction d with
  | nil => simp [List.lookup]
  | cons kv t ih =>
      rw [List.cons_append, List.lookup]
      rw [List.lookup] at h
      cases hk : (k == kv.1) with
      | true =>
          simp only [hk] at h
          cases h
      | false =>
          simp only [hk] at h ⊢
          exact ih h

theorem dictGet_dictPut_same (d : PyDict) (k : Str) (v : PyJson)
    (h : (d.lookup k).isSome) : dictGet (dictPut d k v) k = some v := by
  unfold dictPut dictGet
  rw [if_pos h]
  induction d with
  | nil => simp at h
  | cons kv t ih =>
      rw [List.map_cons]
      by_cases hk : kv.1 == k
      · rw [if_pos hk]
        simp [List.lookup]
      · rw [if_neg hk]
        have hk2 : (kv.1 == k) = false := by
          cases hkk : (kv.1 == k)
          · rfl
          · exact absurd hkk hk
        have hk3 : (k == kv.1) = false :=
          beq_eq_false_iff_ne.mpr (Ne.symm (beq_eq_false_iff_ne.mp hk2))
        rw [List.lookup]
        simp only [hk3]
        apply ih
        rw [List.lookup] at h
        simp only [hk3] at h
        exact h

theorem anchorUrlIs_newAnchor (anchor_type url now : Str) (md : Option PyJson) :
    anchorUrlIs (newAnchor anchor_type url now md) url = true := by
  cases md <;> simp [newAnchor, anchorUrlIs, dictGet, List.lookup, pyEqStr, s2n]

theorem findDupAnchor_eval (url : Str) (A : List PyJson)
    (hwf : ∀ a ∈ A, ∃ kvs, a = PyJson.obj kvs ∧ (dictGet kvs (s2n "url")).isSome) :
    findDupAnchor url A = .ok (A.any (fun a => anchorUrlIs a url)) := by
  induction A with
  | nil => rfl
  | cons a t ih =>
      rcases hwf a (List.mem_cons_self a t) with ⟨kvs, rfl, hurl⟩
      rcases Option.isSome_iff_exists.mp hurl with ⟨v, hv⟩
      rw [findDupAnchor]
      rw [show pyIndex (PyJson.obj kvs) (s2n "url") = .ok v from by
        simp [pyIndex, hv], except_ok_bind]
      have hand : anchorUrlIs (PyJson.obj kvs) url = pyEqStr v url := by
        simp [anchorUrlIs, hv]
      by_cases hvv : pyEqStr v url = true
      · rw [if_pos hvv]
        rw [List.any_cons, hand, hvv]
        rfl
      · rw [if_neg hvv]
        rw [List.any_cons, hand]
        rw [Bool.not_eq_true] at hvv
        rw [hvv]
        rw [ih (fun x hx => hwf x (List.mem_cons_of_mem _ hx))]
        rfl

/-- C8: for a document whose anchor list is `A` (or whose `anchors` key is
absent, treated as empty): when an anchor with the same url is already present
the call is a no-op that signals "already present" and leaves the document —
in particular its anchor list — unchanged; otherwise exactly one anchor
carrying the current time is appended. The anchor list only ever grows (the old
list is a prefix of the new one), and calling `add_anchor` twice with the same
url starting from a document without it leaves exactly one anchor with that
url. -/
theorem c8_anchor_append_dedup (doc : PyDict) (A : List PyJson)
    (anchor_type url now : Str) (md : Option PyJson)
    (hA : anchorsView doc A)
    (hwf : ∀ a ∈ A, ∃ kvs, a = PyJson.obj kvs ∧ (dictGet kvs (s2n "url")).isSome) :
    ((∃ a ∈ A, anchorUrlIs a url = true) →
      add_anchor doc anchor_type url now md = .ok (doc, true)) ∧
    ((∀ a ∈ A, anchorUrlIs a url = false) →
      ∃ doc1, add_anchor doc anchor_type url now md = .ok (doc1, false) ∧
        dictGet doc1 (s2n "anchors")
          = some (.arr (A ++ [newAnchor anchor_type url now md]))) ∧
    (∀ doc1 w, add_anchor doc anchor_type url now md = .ok (doc1, w) →
      ∃ tail, dictGet doc1 (s2n "anchors") = some (.arr (A ++ tail))) ∧
    (A.countP (fun a => anchorUrlIs a url) = 0 →
      ∃ doc1, add_anchor doc anchor_type url now md = .ok (doc1, false) ∧
        add_anchor doc1 anchor_type url now md = .ok (doc1, true) ∧
        ∃ A1, dictGet doc1 (s2n "anchors") = some (.arr A1) ∧
          A1.countP (fun a => anchorUrlIs a url) = 1) := by
  have hwfnew : ∀ a ∈ A ++ [newAnchor anchor_type url now md],
      ∃ kvs, a = PyJson.obj kvs ∧ (dictGet kvs (s2n "url")).isSome := by
    intro a ha
    rcases List.mem_append.mp ha with ha | ha
    · exact hwf a ha
    · rw [List.mem_singleton.mp ha]
      cases md with
      | none =>
          exact ⟨_, rfl, by simp [dictGet, List.lookup, s2n]⟩
      | some m =>
          exact ⟨_, rfl, by simp [dictGet, List.lookup, s2n]⟩
  rcases hA with hA1 | ⟨hA2, rfl⟩
  · -- the anchors key is present with value A
    have hred : add_anchor doc anchor_type url now md = (do
        let dup ← findDupAnchor url A
        if dup then .ok (doc, true)
        else .ok (dictPut doc (s2n "anchors")
          (.arr (A ++ [newAnchor anchor_type url now md])), false)) := by
      simp only [add_anchor, hA1]
    have hsome : ((doc.lookup (s2n "anchors")).isSome) := by
      unfold dictGet at hA1
      rw [hA1]
      rfl
    refine ⟨?_, ?_, ?_, ?_⟩
    · intro hdup
      rw [hred, findDupAnchor_eval url A hwf, except_ok_bind,
        if_pos (List.any_eq_true.mpr hdup)]
    · intro hno
      have hanyf : A.any (fun a => anchorUrlIs a url) = false := by
        rw [List.any_eq_false]
        intro a ha
        rw [hno a ha]
        simp
      refine ⟨dictPut doc (s2n "anchors")
        (.arr (A ++ [newAnchor anchor_type url now md])), ?_, ?_⟩
      · rw [hred, findDupAnchor_eval url A hwf, except_ok_bind, hanyf, if_neg (by simp)]
      · exact dictGet_dictPut_same doc (s2n "anchors") _ hsome
    · intro doc1 w hcall
      rw [hred, findDupAnchor_eval url A hwf, except_ok_bind] at hcall
      by_cases hany : A.any (fun a => anchorUrlIs a url) = true
      · rw [hany, if_pos rfl] at hcall
        injection hcall with hcall
        refine ⟨[], ?_⟩
        rw [List.append_nil, ← (Prod.mk.injEq _ _ _ _).mp hcall |>.1]
        exact hA1
      · rw [Bool.not_eq_true] at hany
        rw [hany, if_neg (by simp)] at hcall
        injection hcall with hcall
        refine ⟨[newAnchor anchor_type url now md], ?_⟩
        rw [← (Prod.mk.injEq _ _ _ _).mp hcall |>.1]
        exact dictGet_dictPut_same doc (s2n "anchors") _ hsome
    · intro hcount
      have hno : ∀ a ∈ A, anchorUrlIs a url = false := by
        intro a ha
        by_cases h : anchorUrlIs a url = true
        · exfalso
          have : 0 < A.countP (fun a => anchorUrlIs a url) :=
            List.countP_pos_iff.mpr ⟨a, ha, h⟩
          omega
        · rw [Bool.not_eq_true] at h
          exact h
      have hanyf : A.any (fun a => anchorUrlIs a url) = false := by
        rw [List.any_eq_false]
        intro a ha
        rw [hno a ha]
        simp
      refine ⟨dictPut doc (s2n "anchors")
        (.arr (A ++ [newAnchor anchor_type url now md])), ?_, ?_, ?_⟩
      · rw [hred, findDupAnchor_eval url A hwf, except_ok_bind, hanyf, if_neg (by simp)]
      · have hget1 : dictGet (dictPut doc (s2n "anchors")
            (.arr (A ++ [newAnchor anchor_type url now md]))) (s2n "anchors")
            = some (.arr (A ++ [newAnchor anchor_type url now md])) :=
          dictGet_dictPut_same doc (s2n "anchors") _ hsome
        have hred2 : add_anchor (dictPut doc (s2n "anchors")
            (.arr (A ++ [newAnchor anchor_type url now md]))) anchor_type url now md = (do
            let dup ← findDupAnchor url (A ++ [newAnchor anchor_type url now md])
            if dup then .ok (dictPut doc (s2n "anchors")
              (.arr (A ++ [newAnchor anchor_type url now md])), true)
            else .ok (dictPut (dictPut doc (s2n "anchors")
              (.arr (A ++ [newAnchor anchor_type url now md]))) (s2n "anchors")
              (.arr ((A ++ [newAnchor anchor_type url now md])
                ++ [newAnchor anchor_type url now md])), false)) := by
          simp only [add_anchor, hget1]
        rw [hred2, findDupAnchor_eval url _ hwfnew, except_ok_bind,
          if_pos (List.any_eq_true.mpr ⟨newAnchor anchor_type url now md,
            List.mem_append.mpr (Or.inr (List.mem_singleton.mpr rfl)),
            anchorUrlIs_newAnchor anchor_type url now md⟩)]
      · refine ⟨A ++ [newAnchor anchor_type url now md],
          dictGet_dictPut_same doc (s2n "anchors") _ hsome, ?_⟩
        simp [List.countP_append, hcount, List.countP_singleton,
          anchorUrlIs_newAnchor anchor_type url now md]
  · -- the anchors key is absent: it is created, then the new anchor appended
    have hred : add_anchor doc anchor_type url now md =
        .ok (dictPut (doc ++ [(s2n "anchors", .arr [])]) (s2n "anchors")
          (.arr [newAnchor anchor_type url now md]), false) := by
      simp only [add_anchor, hA2]
    have hsome : (((doc ++ [(s2n "anchors", PyJson.arr [])]).lookup (s2n "anchors")).isSome) := by
      rw [lookup_append_of_none doc (s2n "anchors") (PyJson.arr []) hA2]
      rfl
    have hget1 : dictGet (dictPut (doc ++ [(s2n "anchors", .arr [])]) (s2n "anchors")
        (.arr [newAnchor anchor_type url now md])) (s2n "anchors")
        = some (.arr [newAnchor anchor_type url now md]) :=
      dictGet_dictPut_same _ (s2n "anchors") _ hsome
    refine ⟨?_, ?_, ?_, ?_⟩
    · intro hdup
      rcases hdup with ⟨a, ha, _⟩
      cases ha
    · intro _
      exact ⟨_, hred, by rw [List.nil_append]; exact hget1⟩
    · intro doc1 w hcall
      rw [hred] at hcall
      injection hcall with hcall
      refine ⟨[newAnchor anchor_type url now md], ?_⟩
      rw [← (Prod.mk.injEq _ _ _ _).mp hcall |>.1, List.nil_append]
      exact hget1
    · intro _
      refine ⟨dictPut (doc ++ [(s2n "anchors", .arr [])]) (s2n "anchors")
        (.arr [newAnchor anchor_type url now md]), hred, ?_, ?_⟩
      · have hred2 : add_anchor (dictPut (doc ++ [(s2n "anchors", .arr [])])
            (s2n "anchors") (.arr [newAnchor anchor_type url now md]))
            anchor_type url now md = (do
            let dup ← findDupAnchor url [newAnchor anchor_type url now md]
            if dup then .ok (dictPut (doc ++ [(s2n "anchors", .arr [])]) (s2n "anchors")
              (.arr [newAnchor anchor_type url now md]), true)
            else .ok (dictPut (dictPut (doc ++ [(s2n "anchors", .arr [])]) (s2n "anchors")
              (.arr [newAnchor anchor_type url now md])) (s2n "anchors")
              (.arr ([newAnchor anchor_type url now md]
                ++ [newAnchor anchor_type url now md])), false)) := by
          simp only [add_anchor, hget1]
        rw [hred2, findDupAnchor_eval url _ (by
            intro a ha
            exact hwfnew a (by simpa using ha)), except_ok_bind,
          if_pos (List.any_eq_true.mpr ⟨newAnchor anchor_type url now md,
            List.mem_singleton.mpr rfl,
            anchorUrlIs_newAnchor anchor_type url now md⟩)]
      · refine ⟨[newAnchor anchor_type url now md], hget1, ?_⟩
        simp [List.countP_singleton, anchorUrlIs_newAnchor anchor_type url now md]

theorem c8_witness :
    anchorsView [(s2n "claim", PyJson.null), (s2n "anchors", PyJson.arr [])] [] ∧
    ((∀ a ∈ ([] : List PyJson), anchorUrlIs a (s2n "u") = false) →
      ∃ doc1, add_anchor [(s2n "claim", PyJson.null), (s2n "anchors", PyJson.arr [])]
          (s2n "twitter") (s2n "u") [] Option.none = .ok (doc1, false) ∧
        dictGet doc1 (s2n "anchors")
          = some (.arr ([] ++ [newAnchor (s2n "twitter") (s2n "u") [] Option.none]))) :=
  ⟨Or.inl rfl,
    (c8_anchor_append_dedup [(s2n "claim", PyJson.null), (s2n "anchors", PyJson.arr [])]
      [] (s2n "twitter") (s2n "u") [] Option.none (Or.inl rfl)
      (by intro a ha; cases ha)).2.1⟩

theorem filterMap_dite {α β : Type} (p : α → Prop) [DecidablePred p] (f : α → β)
    (l : List α) :
    (l.filterMap (fun a => if p a then some (f a) else Option.none))
      = (l.filter (fun a => decide (p a))).map f := by
  induction l with
  | nil => rfl
  | cons a t ih =>
      by_cases h : p a <;> simp [List.filterMap_cons, List.filter_cons, h, ih]

theorem hammingStrDist_bitsStr : ∀ a b : List Bool,
    hammingStrDist (bitsStr a) (bitsStr b) = hamming_distance a b := by
  intro a
  induction a with
  | nil => intro b; rfl
  | cons x t ih =>
      intro b
      cases b with
      | nil => rfl
      | cons y s =>
          simp only [hammingStrDist, hamming_distance, bitsStr, List.map_cons,
            List.zip_cons_cons, List.countP_cons] at ih ⊢
          rw [ih s]
          cases x <;> cases y <;> rfl

theorem query_similar_eq (loads : Str → PyJson) (db : HashDatabase)
    (hash_binary : List Bool) (threshold : Int) (platform : Option Str) (limit : Nat) :
    query_similar loads db hash_binary threshold platform limit =
      (sortLe (fun x y => decide (x.hamming_distance ≤ y.hamming_distance))
        ((qualifyingRows db hash_binary threshold platform).map
          (fun r => matchOfRow loads r
            (hammingStrDist (bitsStr hash_binary) r.hash)))).take limit := by
  simp only [query_similar, qualifyingRows]
  rw [filterMap_dite (fun r : HashRecord =>
    ((hammingStrDist (bitsStr hash_binary) r.hash : Int) ≤ threshold))]

theorem platformRows_mem (db : HashDatabase) (platform : Option Str)
    (r : HashRecord) (hr : r ∈ platformRows db platform) :
    r ∈ db.rows ∧ ∀ p, platform = some p → r.platform = some p := by
  cases platform with
  | none =>
      refine ⟨hr, ?_⟩
      intro p hp
      cases hp
  | some p =>
      simp only [platformRows, List.mem_filter] at hr
      refine ⟨hr.1, ?_⟩
      intro q hq
      cases hq
      exact beq_iff_eq.mp hr.2

theorem platformRows_mem_of (db : HashDatabase) (platform : Option Str)
    (r : HashRecord) (hr : r ∈ db.rows)
    (hp : ∀ p, platform = some p → r.platform = some p) :
    r ∈ platformRows db platform := by
  cases platform with
  | none => exact hr
  | some p =>
      simp only [platformRows, List.mem_filter]
      exact ⟨hr, beq_iff_eq.mpr (hp p rfl)⟩

theorem query_similar_sound (loads : Str → PyJson) (db : HashDatabase)
    (hash_binary : List Bool) (threshold : Int) (platform : Option Str) (limit : Nat) :
    ∀ m ∈ query_similar loads db hash_binary threshold platform limit,
      ∃ r ∈ db.rows, (∀ p, platform = some p → r.platform = some p) ∧
        m = matchOfRow loads r (hammingStrDist (bitsStr hash_binary) r.hash) ∧
        ((hammingStrDist (bitsStr hash_binary) r.hash : Int) ≤ threshold) := by
  intro m hm
  rw [query_similar_eq] at hm
  have hm2 := (sortLe_perm _ _).mem_iff.mp ((List.take_sublist _ _).subset hm)
  rcases List.mem_map.mp hm2 with ⟨r, hrq, rfl⟩
  have hrf := List.mem_filter.mp hrq
  rcases platformRows_mem db platform r hrf.1 with ⟨hrdb, hrp⟩
  exact ⟨r, hrdb, hrp, rfl, of_decide_eq_true hrf.2⟩

theorem query_similar_complete (loads : Str → PyJson) (db : HashDatabase)
    (hash_binary : List Bool) (threshold : Int) (platform : Option Str) (limit : Nat)
    (hlen : (qualifyingRows db hash_binary threshold platform).length ≤ limit) :
    ∀ r ∈ qualifyingRows db hash_binary threshold platform,
      matchOfRow loads r (hammingStrDist (bitsStr hash_binary) r.hash)
        ∈ query_similar loads db hash_binary threshold platform limit := by
  intro r hr
  rw [query_similar_eq]
  have hlen2 : (sortLe (fun x y => decide (x.hamming_distance ≤ y.hamming_distance))
      ((qualifyingRows db hash_binary threshold platform).map
        (fun r => matchOfRow loads r
          (hammingStrDist (bitsStr hash_binary) r.hash)))).length ≤ limit := by
    rw [(sortLe_perm _ _).length_eq, List.length_map]
    exact hlen
  rw [List.take_of_length_le hlen2]
  exact (sortLe_perm _ _).mem_iff.mpr (List.mem_map.mpr ⟨r, hr, rfl⟩)

/-- C5: `query_similar` returns at most `limit` matches, sorted ascending by
Hamming distance; every returned match comes from a stored row passing the
platform filter, carries the true character-level Hamming distance to the
query (equal to the bit-level distance for stored bit strings of the query's
length), a distance within the threshold, and
`similarity = 100 * (1 - distance / 256)`; when no more than `limit` rows
qualify, every qualifying row is returned; and a stored fingerprint differing
from the query in exactly `k` bits is returned at `threshold = k` (with
`hamming_distance = k`) and excluded at `threshold = k - 1`. -/
theorem c5_query_similar_correct (loads : Str → PyJson) (db : HashDatabase)
    (hash_binary : List Bool) (threshold : Int) (platform : Option Str) (limit : Nat) :
    (query_similar loads db hash_binary threshold platform limit).length ≤ limit ∧
    (query_similar loads db hash_binary threshold platform limit).Pairwise
      (fun x y => x.hamming_distance ≤ y.hamming_distance) ∧
    (∀ m ∈ query_similar loads db hash_binary threshold platform limit,
      ∃ r ∈ db.rows, (∀ p, platform = some p → r.platform = some p) ∧
        m.id = r.id ∧ m.hash = r.hash ∧
        m.hamming_distance = hammingStrDist (bitsStr hash_binary) r.hash ∧
        ((m.hamming_distance : Int) ≤ threshold) ∧
        m.similarity = 100 * (1 - (m.hamming_distance : ℚ) / 256)) ∧
    ((qualifyingRows db hash_binary threshold platform).length ≤ limit →
      ∀ r ∈ qualifyingRows db hash_binary threshold platform,
        ∃ m ∈ query_similar loads db hash_binary threshold platform limit,
          m.id = r.id ∧ m.hash = r.hash ∧
          m.hamming_distance = hammingStrDist (bitsStr hash_binary) r.hash) ∧
    (∀ r ∈ db.rows, ∀ (rb : List Bool) (k : Nat),
      r.hash = bitsStr rb →
      hamming_distance hash_binary rb = k →
      (∀ p, platform = some p → r.platform = some p) →
      (((qualifyingRows db hash_binary (k : Int) platform).length ≤ limit →
          ∃ m ∈ query_similar loads db hash_binary (k : Int) platform limit,
            m.id = r.id ∧ m.hash = r.hash ∧ m.hamming_distance = k) ∧
        (∀ m ∈ query_similar loads db hash_binary ((k : Int) - 1) platform limit,
          m.hash ≠ r.hash))) := by
  refine ⟨?_, ?_, ?_, ?_, ?_⟩
  · rw [query_similar_eq]
    exact List.length_take_le _ _
  · rw [query_similar_eq]
    have hp := sortLe_pairwise (fun x y : SimilarMatch =>
        decide (x.hamming_distance ≤ y.hamming_distance))
      (by intro a b
          by_cases h : a.hamming_distance ≤ b.hamming_distance
          · left; simpa using h
          · right; simp; omega)
      (by intro a b c h1 h2
          simp only [decide_eq_true_eq] at h1 h2 ⊢
          omega)
      ((qualifyingRows db hash_binary threshold platform).map
        (fun r => matchOfRow loads r (hammingStrDist (bitsStr hash_binary) r.hash)))
    exact ((hp.sublist (List.take_sublist _ _)).imp (fun h => of_decide_eq_true h))
  · intro m hm
    rcases query_similar_sound loads db hash_binary threshold platform limit m hm with
      ⟨r, hrdb, hrp, rfl, hle⟩
    exact ⟨r, hrdb, hrp, rfl, rfl, rfl, hle, rfl⟩
  · intro hlen r hr
    exact ⟨matchOfRow loads r (hammingStrDist (bitsStr hash_binary) r.hash),
      query_similar_complete loads db hash_binary threshold platform limit hlen r hr,
      rfl, rfl, rfl⟩
  · intro r hrdb rb k hrhash hk hplat
    have hdist : hammingStrDist (bitsStr hash_binary) r.hash = k := by
      rw [hrhash, hammingStrDist_bitsStr]
      exact hk
    constructor
    · intro hlen
      have hq : r ∈ qualifyingRows db hash_binary (k : Int) platform := by
        refine List.mem_filter.mpr ⟨platformRows_mem_of db platform r hrdb hplat, ?_⟩
        rw [hdist]
        simp
      exact ⟨matchOfRow loads r (hammingStrDist (bitsStr hash_binary) r.hash),
        query_similar_complete loads db hash_binary (k : Int) platform limit hlen r hq,
        rfl, rfl, by rw [hdist]; rfl⟩
    · intro m hm hmr
      rcases query_similar_sound loads db hash_binary ((k : Int) - 1) platform limit m hm
        with ⟨r', hr'db, hr'p, rfl, hle⟩
      have : r'.hash = r.hash := hmr
      rw [this, hdist] at hle
      omega

theorem c5_witness :
    (query_similar (fun _ => PyJson.null)
      { rows :=
          [{ id := 1, hash := [49], hash_hex := [48], video_id := Option.none,
             platform := Option.none, upload_date := Option.none,
             file_path := Option.none, frame_count := Option.none,
             metadata := Option.none, created_at := [], signature := Option.none,
             public_key := Option.none, key_id := Option.none,
             signed_at := Option.none, signature_version := Option.none }],
        nextId := 2 } [false] 30 Option.none 100).length ≤ 100 :=
  (c5_query_similar_correct (fun _ => PyJson.null) _ [false] 30 Option.none 100).1

theorem c4_witness :
    (store_hash
      { rows :=
          [{ id := 1, hash := [49], hash_hex := [48], video_id := Option.none,
             platform := Option.none, upload_date := Option.none,
             file_path := Option.none, frame_count := Option.none,
             metadata := Option.none, created_at := [], signature := Option.none,
             public_key := Option.none, key_id := Option.none,
             signed_at := Option.none, signature_version := Option.none }],
        nextId := 2 } [] [true] {}).2 = some 1 :=
  (c4_store_merge _ [] [true] {} _ (List.mem_singleton.mpr rfl) rfl
    (by simp)).1

/-- C3 (the code, at the failing input): when the decoder yields zero frames,
`extract_perceptual_features` silently returns an empty feature mapping — it
has no "no frames" validation — and `compute_perceptual_hash` on that empty
mapping raises `StopIteration` at `next(iter(features.values()))`: the pipeline
crashes in a downstream step instead of failing fast with an explicit
"no frames" input-validation error. -/
theorem c3_empty_frames_silent_map_then_crash {Frame : Type} (ops : VisionOps Frame)
    (g : Nat) (hash_size : Nat) (seed : PySeed) (hseed : seedInRange ops seed) :
    extract_perceptual_features ops ([] : List Frame) = [] ∧
    compute_perceptual_hash ops g (extract_perceptual_features ops ([] : List Frame))
      hash_size seed = .error .stopIteration := by
  constructor
  · rfl
  · show compute_perceptual_hash ops g [] hash_size seed = .error .stopIteration
    rcases hseed with ⟨hs1, hs2⟩
    have hseedok : npRandomSeed (pyRealSeed ops seed) = .ok (pyRealSeed ops seed).toNat := by
      unfold npRandomSeed
      rw [if_pos ⟨hs1, hs2⟩]
    simp only [compute_perceptual_hash, hseedok, except_ok_bind]
    rfl

theorem l2normalize_length {Frame : Type} (ops : VisionOps Frame) (v : List ℚ) :
    (l2normalize ops v).length = v.length := by
  simp only [l2normalize]
  split <;> simp

theorem projectFrames_ok {Frame : Type} (ops : VisionOps Frame) (P : Nat → Nat → ℚ)
    (d hs : Nat) (l : List FeatureSet) (hl : ∀ fs ∈ l, (frameVec fs).length = d) :
    projectFrames ops P d hs l =
      .ok (l.map (fun fs => projApply (l2normalize ops (nanToNum (frameVec fs))) P hs)) := by
  induction l with
  | nil => rfl
  | cons fs t ih =>
      have hlen : (l2normalize ops (nanToNum (frameVec fs))).length = d := by
        rw [l2normalize_length]
        exact hl fs (List.mem_cons_self fs t)
      simp only [projectFrames]
      rw [if_pos hlen, ih (fun x hx => hl x (List.mem_cons_of_mem _ hx)), except_ok_bind]
      rfl

/-- C1: for a fixed seed (int, string or None) and a fixed non-empty ordered
frame sequence, `extract_perceptual_features` followed by
`compute_perceptual_hash` produces one fixed bit vector of length `hash_size`:
the result is a function of the frames, the seed and the hash size only, and in
particular does not depend on the ambient numpy generator state (`npState`),
the channel through which one run, process or machine could differ from
another — `np.random.seed(real_seed)` overwrites it before any drawing. -/
theorem c1_fingerprint_deterministic {Frame : Type} (ops : VisionOps Frame)
    (frames : List Frame) (hash_size : Nat) (seed : PySeed)
    (hne : frames ≠ [])
    (hdim : ∀ fs1 ∈ extract_perceptual_features ops frames,
      ∀ fs2 ∈ extract_perceptual_features ops frames,
        (frameVec fs1).length = (frameVec fs2).length)
    (hseed : seedInRange ops seed) :
    ∃ bits : List Bool, bits.length = hash_size ∧
      ∀ npState : Nat,
        compute_perceptual_hash ops npState (extract_perceptual_features ops frames)
          hash_size seed = .ok bits := by
  rcases hseed with ⟨hs1, hs2⟩
  have hseedok : npRandomSeed (pyRealSeed ops seed) = .ok (pyRealSeed ops seed).toNat := by
    unfold npRandomSeed
    rw [if_pos ⟨hs1, hs2⟩]
  have hfne : extract_perceptual_features ops frames ≠ [] := by
    unfold extract_perceptual_features
    simpa using hne
  obtain ⟨fs0, t, hcons⟩ := List.exists_cons_of_ne_nil hfne
  have hdsum : (frameVec fs0).length =
      fs0.edges.length + fs0.textures.length + fs0.saliency.length + fs0.color_hist.length := by
    simp [frameVec]
    omega
  have hall : ∀ fs ∈ extract_perceptual_features ops frames, (frameVec fs).length =
      fs0.edges.length + fs0.textures.length + fs0.saliency.length + fs0.color_hist.length := by
    intro fs hfs
    rw [← hdsum]
    exact hdim fs hfs fs0 (by rw [hcons]; exact List.mem_cons_self fs0 t)
  refine ⟨binarize hash_size (projectedMeanOf
      ((extract_perceptual_features ops frames).map (fun fs =>
        projApply (l2normalize ops (nanToNum (frameVec fs)))
          (fun i j => ops.randn (pyRealSeed ops seed).toNat
            (fs0.edges.length + fs0.textures.length + fs0.saliency.length
              + fs0.color_hist.length) hash_size i j) hash_size))),
    by simp [binarize], ?_⟩
  intro npState
  rw [hcons] at hall ⊢
  simp only [compute_perceptual_hash, hseedok, except_ok_bind]
  rw [show firstFeature (fs0 :: t) = .ok fs0 from rfl, except_ok_bind]
  rw [projectFrames_ok ops _ _ hash_size (fs0 :: t) hall, except_ok_bind]

theorem c1_witness :
    ([()] : List Unit) ≠ [] ∧
    (∀ fs1 ∈ extract_perceptual_features trivialVisionOps [()],
      ∀ fs2 ∈ extract_perceptual_features trivialVisionOps [()],
        (frameVec fs1).length = (frameVec fs2).length) ∧
    seedInRange trivialVisionOps (.int 42) ∧
    ∃ bits : List Bool, bits.length = 256 ∧
      ∀ npState : Nat,
        compute_perceptual_hash trivialVisionOps npState
          (extract_perceptual_features trivialVisionOps [()]) 256 (.int 42) = .ok bits :=
  ⟨by simp,
   by intro fs1 h1 fs2 h2
      simp only [extract_perceptual_features, List.map_cons, List.map_nil,
        List.mem_singleton] at h1 h2
      rw [h1, h2],
   by constructor <;> decide,
   c1_fingerprint_deterministic trivialVisionOps [()] 256 (.int 42) (by simp)
     (by intro fs1 h1 fs2 h2
         simp only [extract_perceptual_features, List.map_cons, List.map_nil,
           List.mem_singleton] at h1 h2
         rw [h1, h2])
     (by constructor <;> decide)⟩

theorem c3_witness :
    seedInRange trivialVisionOps (.int 42) ∧
    (extract_perceptual_features trivialVisionOps ([] : List Unit) = [] ∧
      compute_perceptual_hash trivialVisionOps 0
        (extract_perceptual_features trivialVisionOps ([] : List Unit)) 256 (.int 42)
        = .error .stopIteration) :=
  ⟨by constructor <;> decide,
    c3_empty_frames_silent_map_then_crash trivialVisionOps 0 256 (.int 42)
      (by constructor <;> decide)⟩

end Sigil
